import Mathlib

/-!
Storage driver over a flat object store: model of `upyun.go`.

A shallow embedding of the driver in `src/upyun.go`.

* Go strings are Lean `String`s; the path functions work on their character
  lists.  The only bytes the path code inspects are `/` and `.`, which never
  occur inside a multi-byte UTF-8 sequence, so working on characters instead
  of bytes yields the same strings.
* The object-storage client (`github.com/upyun/go-sdk/upyun`) is an external
  collaborator.  It is a parameter of the model: a record of state-passing
  functions over an arbitrary backend state `σ`, so that a backend may answer
  the same question differently at different times (eventual consistency).
* `int64` values are `Int`; the one place where the code does arithmetic on
  them (`w.size += int64(len(p))`) wraps explicitly.
* A Go call can return, raise a run-time panic, or spin forever in one of the
  `for { ... time.Sleep(time.Second) }` polling loops.  Loops take a fuel
  argument (a bound on the number of iterations and nested calls);
  `Res.pending` is the answer of a call that is still polling when the fuel is
  used up.
-/

namespace Upyun

/-! ## Basic types -/

/-- One byte of object content. -/
abbrev Byte := Fin 256

deriving instance DecidableEq for Except

/-- Outcome of a Go call. -/
inductive Res (α : Type) where
  /-- the call returned -/
  | ret (a : α)
  /-- the call raised a run-time panic (slice bounds, nil dereference) -/
  | panicked
  /-- the call was still inside a polling loop when the fuel ran out -/
  | pending
  deriving DecidableEq, Repr

/-- The `error` values the driver returns: the `storagedriver` error structs it
builds, `fmt.Errorf` messages, and errors handed through from the client. -/
inductive StorageError where
  | PathNotFoundError (Path : String)
  | InvalidPathError (Path : String)
  | InvalidOffsetError (Path : String) (Offset : Int)
  | ErrUnsupportedMethod
  | Errorf (msg : String)
  | ClientError (msg : String)
  deriving DecidableEq, Repr

/-- The `upyun.FileInfo` fields the driver reads. -/
structure FileInfo where
  Size : Int
  Name : String
  Type_ : String
  deriving DecidableEq, Repr

/-- Answer of `Client.GetInfo`: a `*FileInfo`, which may be nil, and an error. -/
structure InfoReply where
  info : Option FileInfo
  err : Option String
  deriving DecidableEq, Repr

/-- Answer of `Client.Get(key, w)`: the bytes it wrote into `w`, the length it
reports, and an error. -/
structure GetReply where
  written : List Byte
  length : Int
  err : Option String
  deriving DecidableEq, Repr

/-- Answer of `Client.GetLargeList`: everything sent on the file channel and
everything sent on the error channel before they are closed. -/
structure ListReply where
  files : List FileInfo
  errs : List String
  deriving DecidableEq, Repr

/-- The client operations the driver calls.  Every operation may change the
backend state. -/
structure Client (σ : Type) where
  Mkdir : String → σ → Option String × σ
  Put : String → List Byte → σ → Option String × σ
  GetInfo : String → σ → InfoReply × σ
  Get : String → σ → GetReply × σ
  Delete : String → σ → Option String × σ
  AsyncDelete : String → σ → σ
  GetLargeList : String → σ → ListReply × σ

/-- The `driver` struct. -/
structure driver (σ : Type) where
  Client : Client σ
  rootDirectory : String

/-! ## Path translation: `path.Join`, `path.Clean`, `strings.LastIndex` -/

/-- The `/`-separated elements of a path, empty ones included. -/
def splitSlash : List Char → List (List Char)
  | [] => [[]]
  | c :: cs =>
    if c = '/' then [] :: splitSlash cs
    else
      match splitSlash cs with
      | [] => [[c]]
      | e :: es => (c :: e) :: es

/-- The backtracking loop of `path.Clean` after `out.w--`:
`for out.w > dotdot && out.index(out.w) != '/' { out.w-- }`, started at write
index `w`; the result is the final write index. -/
def backtrackTo (buf : List Char) (dotdot : Nat) : Nat → Nat
  | 0 => 0
  | w + 1 =>
    if dotdot < w + 1 ∧ buf.getD (w + 1) '/' ≠ '/' then backtrackTo buf dotdot w
    else w + 1

/-- One iteration of the main loop of `path.Clean` on the path element `e` that
starts at the read index; the state is the output buffer `out` (its length is
the write index `out.w`) and the barrier `dotdot`. -/
def cleanElem (rooted : Bool) (st : List Char × Nat) (e : List Char) : List Char × Nat :=
  if e = [] then st
  else if e = ['.'] then st
  else if e = ['.', '.'] then
    if st.2 < st.1.length then
      (st.1.take (backtrackTo st.1 st.2 (st.1.length - 1)), st.2)
    else if !rooted then
      let out1 := if 0 < st.1.length then st.1 ++ ['/'] else st.1
      (out1 ++ ['.', '.'], (out1 ++ ['.', '.']).length)
    else st
  else
    let out1 :=
      if (rooted && st.1.length != 1) || (!rooted && st.1.length != 0) then st.1 ++ ['/']
      else st.1
    (out1 ++ e, st.2)

/-- The buffer `path.Clean` has built when its loop ends. -/
def cleanBuf (p : List Char) : List Char :=
  let rooted := p.head? == some '/'
  ((splitSlash p).foldl (cleanElem rooted) (if rooted then (['/'], 1) else ([], 0))).1

/-- Modelled from the spec: Go's standard-library `path.Clean`, which is not
part of the repository's sources.  The model follows the library's algorithm:
the empty path gives `"."`; a rooted path starts the output with `/`; the loop
skips empty and `.` elements, lets a `..` element remove the last output
element down to the `dotdot` barrier (or appends it when the path is not
rooted and nothing can be removed), and copies every other element after a
separating `/`; an empty output gives `"."`. -/
def Clean (path : String) : String :=
  if path.data = [] then "."
  else if (cleanBuf path.data).length = 0 then "."
  else String.mk (cleanBuf path.data)

/-- Go's `strings.Join`. -/
def stringsJoin : List String → String → String
  | [], _ => ""
  | [a], _ => a
  | a :: b :: rest, sep => a ++ sep ++ stringsJoin (b :: rest) sep

/-- Modelled from the spec: Go's standard-library `path.Join`: leading empty
elements are dropped, the rest is joined with `/` and cleaned; when every
element is empty the result is the empty string. -/
def Join (elem : List String) : String :=
  match elem.dropWhile (fun e => e == "") with
  | [] => ""
  | e :: es => Clean (stringsJoin (e :: es) "/")

/-- `driver.fullPath`. -/
def driver.fullPath {σ : Type} (d : driver σ) (subPath : String) : String :=
  Join [d.rootDirectory, subPath]

/-- Position of the last `/` in a character list, counted from the front. -/
def lastSlash : List Char → Option Nat
  | [] => none
  | c :: cs =>
    match lastSlash cs with
    | some i => some (i + 1)
    | none => if c = '/' then some 0 else none

/-- Go's `strings.LastIndex(s, "/")`: index of the last `/`, or `-1`.  The index
counts characters where Go counts bytes; the only use of the index, the slice
`s[:i]`, denotes the same string either way. -/
def LastIndex (s : String) : Int :=
  match lastSlash s.data with
  | some i => (i : Int)
  | none => -1

/-- The slice expression `s[:i]`; `none` is the run-time panic for an index
outside `0 ≤ i ≤ len(s)`. -/
def sliceTo (s : String) (i : Int) : Option String :=
  if 0 ≤ i ∧ i ≤ (s.data.length : Int) then some (String.mk (s.data.take i.toNat)) else none

/-- The expression `fullPath[:strings.LastIndex(fullPath, "/")]`. -/
def parentDir (fullPath : String) : Option String :=
  sliceTo fullPath (LastIndex fullPath)

/-! ### Reference description of a separator-collapsed path

The definitions of this part are not taken from the code: they spell out what
"the separator-collapsed join" of the path contract means, and the theorems on
`fullPath` compare the code with them. -/

/-- Reference definition: the elements a collapsed path keeps, those that are
neither empty nor `.`. -/
def namedElements (p : List Char) : List (List Char) :=
  (splitSlash p).filter (fun e => decide (e ≠ [] ∧ e ≠ ['.']))

/-- Reference definition: every element written after one `/`. -/
def slashed : List (List Char) → List Char
  | [] => []
  | e :: es => '/' :: e ++ slashed es

/-- Reference definition: the elements written with one `/` between
neighbours. -/
def slashJoin : List (List Char) → List Char
  | [] => []
  | e :: es => e ++ slashed es

/-- Reference definition: the collapsed path with the given elements: `/`
followed by the joined elements when rooted, the joined elements otherwise,
and `.` for a relative path without elements. -/
def collapsedPath (rooted : Bool) (es : List (List Char)) : String :=
  if rooted then String.mk ('/' :: slashJoin es)
  else if es = [] then "."
  else String.mk (slashJoin es)

/-- Reference definition: the elements `es` placed under an already cleaned
root: nothing is added for no elements; the root `/` is not followed by a
second `/`; the root `.` is left out; any other root is followed by `/` and
the joined elements. -/
def underRoot (cleanRoot : String) (es : List (List Char)) : String :=
  if es = [] then cleanRoot
  else if cleanRoot = "/" then String.mk ('/' :: slashJoin es)
  else if cleanRoot = "." then String.mk (slashJoin es)
  else cleanRoot ++ "/" ++ String.mk (slashJoin es)

/-- Proof invariant of the buffer `path.Clean` builds for a path that is not
rooted: it does not start with `/`, and it does not start with a `.` element. -/
def relHead : List Char → Prop
  | [] => True
  | [c] => c ≠ '/' ∧ c ≠ '.'
  | c :: c2 :: _ => c ≠ '/' ∧ (c = '.' → c2 ≠ '/')

/-! ## Driver facade -/

/-- The fields of the `storagedriver.FileInfoInternal` that `Stat` builds. -/
structure FileInfoFields where
  Size : Int
  Path : String
  IsDir : Bool
  deriving DecidableEq, Repr

/-- `driver.Stat`.  `fi.Size` on a nil `fi` is a nil dereference. -/
def driver.Stat {σ : Type} (d : driver σ) (path : String) (s : σ) :
    Res (Except StorageError FileInfoFields × σ) :=
  let r := d.Client.GetInfo (d.fullPath path) s
  match r.1.err with
  | some _ => .ret (.error (.PathNotFoundError path), r.2)
  | none =>
    match r.1.info with
    | none => .panicked
    | some fi => .ret (.ok ⟨fi.Size, fi.Name, fi.Type_ != "file"⟩, r.2)

/-- `driver.GetContent`, up to its first unconditional `return buf, err`; the
statements after it are unreachable.  `ioutil.ReadAll` of the buffer gives the
bytes `Get` wrote, without error. -/
def driver.GetContent {σ : Type} (d : driver σ) (path : String) (s : σ) :
    Except StorageError (List Byte) × σ :=
  let r := d.Client.GetInfo (d.fullPath path) s
  match r.1.err with
  | some _ => (.error (.PathNotFoundError path), r.2)
  | none =>
    let g := d.Client.Get (d.fullPath path) r.2
    match g.1.err with
    | some e => (.error (.ClientError e), g.2)
    | none => (.ok g.1.written, g.2)

/-- The `for` loop of `driver.PutContent`: upload, read the size back, repeat
until it equals `len(contents)`. -/
def putLoop {σ : Type} (d : driver σ) (path fullPath : String) (contents : List Byte) :
    Nat → σ → Res (Option StorageError × σ)
  | 0, _ => .pending
  | fuel + 1, s =>
    let p := d.Client.Put fullPath contents s
    match p.1 with
    | some _ => .ret (some (.InvalidPathError path), p.2)
    | none =>
      let r := d.Client.GetInfo fullPath p.2
      match r.1.err with
      | some _ => .ret (some (.InvalidPathError path), r.2)
      | none =>
        match r.1.info with
        | none => .panicked
        | some fi =>
          if fi.Size = (contents.length : Int) then .ret (none, r.2)
          else putLoop d path fullPath contents fuel r.2

/-- `driver.PutContent`. -/
def driver.PutContent {σ : Type} (d : driver σ) (fuel : Nat) (path : String)
    (contents : List Byte) (s : σ) : Res (Option StorageError × σ) :=
  match parentDir (d.fullPath path) with
  | none => .panicked
  | some dir =>
    let m := d.Client.Mkdir dir s
    match m.1 with
    | some _ => .ret (some (.InvalidPathError path), m.2)
    | none => putLoop d path (d.fullPath path) contents fuel m.2

/-- `driver.Reader`; the result is the byte sequence the returned reader
yields.  The slice `w.Bytes()[offset:]` panics for an offset outside
`0 ≤ offset ≤ len(w.Bytes())`. -/
def driver.Reader {σ : Type} (d : driver σ) (path : String) (offset : Int) (s : σ) :
    Res (Except StorageError (List Byte) × σ) :=
  let g := d.Client.Get (d.fullPath path) s
  match g.1.err with
  | some _ => .ret (.error (.PathNotFoundError path), g.2)
  | none =>
    if offset > g.1.length then .ret (.error (.InvalidOffsetError path offset), g.2)
    else if 0 ≤ offset ∧ offset ≤ (g.1.written.length : Int) then
      .ret (.ok (g.1.written.drop offset.toNat), g.2)
    else .panicked

/-- `driver.List`.  The two channels of `GetLargeList` are taken as the
sequences they deliver: any error yields `PathNotFoundError`, otherwise every
listed name is appended to `path + "/"`. -/
def driver.List {σ : Type} (d : driver σ) (path : String) (s : σ) :
    Except StorageError (List String) × σ :=
  let r := d.Client.GetLargeList (d.fullPath path) s
  match r.1.errs with
  | _ :: _ => (.error (.PathNotFoundError path), r.2)
  | [] => (.ok (r.1.files.map fun f => path ++ "/" ++ f.Name), r.2)

/-- The `for` loop of the file branch of `driver.Move`.  `some r` means the
function returned `r` from inside the loop, `none` that the loop was left by
`break`. -/
def moveLoop {σ : Type} (d : driver σ) (destPath : String) (b : List Byte) :
    Nat → σ → Res (Option (Option StorageError) × σ)
  | 0, _ => .pending
  | fuel + 1, s =>
    match d.PutContent (fuel + 1) destPath b s with
    | .panicked => .panicked
    | .pending => .pending
    | .ret (some _, s1) => .ret (some none, s1)
    | .ret (none, s1) =>
      let r := d.Client.GetInfo (d.fullPath destPath) s1
      match r.1.err with
      | some e => .ret (some (some (.ClientError e)), r.2)
      | none =>
        match r.1.info with
        | none => .panicked
        | some fi =>
          if fi.Size = (b.length : Int) then .ret (none, r.2)
          else moveLoop d destPath b fuel r.2

/-- The loop `for _, file := range files { d.Move(ctx, sourcePath+"/"+file,
destPath+"/"+file) }` of the directory branch of `driver.Move`, with the
recursive call as the argument `mv`; the error a call returns is dropped. -/
def moveEach {σ : Type} (mv : String → String → σ → Res (Option StorageError × σ))
    (sourcePath destPath : String) : List String → σ → Res σ
  | [], s => .ret s
  | file :: rest, s =>
    match mv (sourcePath ++ "/" ++ file) (destPath ++ "/" ++ file) s with
    | .ret (_, s1) => moveEach mv sourcePath destPath rest s1
    | .panicked => .panicked
    | .pending => .pending

/-- `driver.Move`.  The fuel bounds the recursion depth and the iterations of
the polling loop. -/
def driver.Move {σ : Type} (d : driver σ) :
    Nat → String → String → σ → Res (Option StorageError × σ)
  | 0, _, _, _ => .pending
  | fuel + 1, sourcePath, destPath, s =>
    match d.Stat sourcePath s with
    | .panicked => .panicked
    | .pending => .pending
    | .ret (.error e, s1) => .ret (some e, s1)
    | .ret (.ok fi, s1) =>
      if fi.IsDir then
        match d.List sourcePath s1 with
        | (.error e, s2) => .ret (some e, s2)
        | (.ok files, s2) =>
          match moveEach (fun a b t => driver.Move d fuel a b t) sourcePath destPath files s2 with
          | .ret s3 => .ret (none, s3)
          | .panicked => .panicked
          | .pending => .pending
      else
        match d.GetContent sourcePath s1 with
        | (.error e, s2) => .ret (some e, s2)
        | (.ok b, s2) =>
          match moveLoop d destPath b (fuel + 1) s2 with
          | .panicked => .panicked
          | .pending => .pending
          | .ret (some r, s3) => .ret (r, s3)
          | .ret (none, s3) => .ret (none, d.Client.AsyncDelete (d.fullPath sourcePath) s3)

/-! ## Buffered writer -/

/-- The `writer` struct.  Its `driver` pointer is the driver argument of the
methods below. -/
structure writer where
  key : String
  size : Int
  readyPart : List Byte
  closed : Bool
  committed : Bool
  cancelled : Bool
  deriving DecidableEq, Repr

/-- Two's-complement wrap-around of `int64` arithmetic. -/
def wrap64 (x : Int) : Int := (x + 2 ^ 63) % 2 ^ 64 - 2 ^ 63

/-- `driver.newWriter`.  When `Get` fails the object is overwritten with an
empty body and the result of that `Put` is dropped. -/
def driver.newWriter {σ : Type} (d : driver σ) (key : String) (size : Int) (s : σ) :
    writer × σ :=
  if 0 < size then
    let g := d.Client.Get (d.fullPath key) s
    match g.1.err with
    | some _ =>
      (⟨key, size, g.1.written, false, false, false⟩, (d.Client.Put (d.fullPath key) [] g.2).2)
    | none => (⟨key, size, g.1.written, false, false, false⟩, g.2)
  else (⟨key, size, [], false, false, false⟩, s)

/-- `driver.Writer`. -/
def driver.Writer {σ : Type} (d : driver σ) (path : String) (append : Bool) (s : σ) :
    Res (Except StorageError writer × σ) :=
  if append then
    let r := d.Client.GetInfo (d.fullPath path) s
    match r.1.err with
    | some _ => .ret (.error (.PathNotFoundError path), r.2)
    | none =>
      match r.1.info with
      | none => .panicked
      | some fi => .ret (.ok (d.newWriter path fi.Size r.2).1, (d.newWriter path fi.Size r.2).2)
  else .ret (.ok (d.newWriter path 0 s).1, (d.newWriter path 0 s).2)

/-- `writer.Size`. -/
def writer.Size (w : writer) : Int := w.size

/-- `writer.Write`: the returned count and error, and the writer afterwards. -/
def writer.Write (w : writer) (p : List Byte) : (Int × Option StorageError) × writer :=
  (((p.length : Int), none),
    { w with readyPart := w.readyPart ++ p, size := wrap64 (w.size + (p.length : Int)) })

/-- `writer.Cancel`: the returned error and the writer afterwards. -/
def writer.Cancel (w : writer) : Option StorageError × writer :=
  if w.closed then (some (.Errorf "already closed"), w)
  else if w.committed then (some (.Errorf "already committed"), w)
  else (none, { w with size := 0, cancelled := true })

/-- The `for` loop shared, statement for statement, by `writer.Close` and
`writer.Commit`: create the parent directory, upload the buffer, read the size
back (the error of `GetInfo` is dropped, so a nil `fi` is dereferenced), repeat
until it equals `len(w.readyPart)`. -/
def uploadLoop {σ : Type} (d : driver σ) (key fullPath : String) (readyPart : List Byte) :
    Nat → σ → Res (Option StorageError × σ)
  | 0, _ => .pending
  | fuel + 1, s =>
    match parentDir fullPath with
    | none => .panicked
    | some dir =>
      let m := d.Client.Mkdir dir s
      match m.1 with
      | some _ => .ret (some (.InvalidPathError key), m.2)
      | none =>
        let p := d.Client.Put fullPath readyPart m.2
        match p.1 with
        | some _ => .ret (some (.InvalidPathError key), p.2)
        | none =>
          let r := d.Client.GetInfo fullPath p.2
          match r.1.info with
          | none => .panicked
          | some fi =>
            if fi.Size = (readyPart.length : Int) then .ret (none, r.2)
            else uploadLoop d key fullPath readyPart fuel r.2

/-- `writer.Close`: `closed` is set after the loop. -/
def writer.Close {σ : Type} (d : driver σ) (w : writer) (fuel : Nat) (s : σ) :
    Res (Option StorageError × writer × σ) :=
  if w.closed then .ret (some (.Errorf "already closed"), w, s)
  else
    match uploadLoop d w.key (d.fullPath w.key) w.readyPart fuel s with
    | .panicked => .panicked
    | .pending => .pending
    | .ret (some e, s1) => .ret (some e, w, s1)
    | .ret (none, s1) => .ret (none, { w with closed := true }, s1)

/-- `writer.Commit`: `committed` is set before the loop. -/
def writer.Commit {σ : Type} (d : driver σ) (w : writer) (fuel : Nat) (s : σ) :
    Res (Option StorageError × writer × σ) :=
  if w.closed then .ret (some (.Errorf "already closed"), w, s)
  else if w.committed then .ret (some (.Errorf "already committed"), w, s)
  else if w.cancelled then .ret (some (.Errorf "already cancelled"), w, s)
  else
    match uploadLoop d w.key (d.fullPath w.key) w.readyPart fuel s with
    | .panicked => .panicked
    | .pending => .pending
    | .ret (e, s1) => .ret (e, { w with committed := true }, s1)

/-! ## Construction from a configuration map -/

/-- The `DriverParameters` struct. -/
structure DriverParameters where
  Username : String
  Password : String
  Bucket : String
  Endpoint : String
  RootDirectory : String
  deriving DecidableEq, Repr

/-- `New`: `(nil, nil)` when `upyun.NewUpYun` gives no client, otherwise the
driver around the client.  `NewUpYun` is the client constructor. -/
def New {σ : Type} (NewUpYun : String → String → String → Option (Client σ))
    (params : DriverParameters) : Except StorageError (Option (driver σ)) :=
  match NewUpYun params.Bucket params.Username params.Password with
  | none => .ok none
  | some client => .ok (some ⟨client, params.RootDirectory⟩)

/-- `FromParameters`.  The configuration map is a finite-support function from
keys to values of the interface type `V`; `Sprint` is `fmt.Sprint` on it. -/
def FromParameters {σ V : Type} (Sprint : V → String)
    (NewUpYun : String → String → String → Option (Client σ))
    (parameters : String → Option V) : Except StorageError (Option (driver σ)) :=
  match parameters "username" with
  | none => .error (.Errorf "No username parameter provided")
  | some username =>
    match parameters "password" with
    | none => .error (.Errorf "No password parameter provided")
    | some password =>
      match parameters "bucket" with
      | none => .error (.Errorf "No bucket parameter provided")
      | some bucket =>
        if Sprint bucket = "" then .error (.Errorf "No bucket parameter provided")
        else
          New NewUpYun
            { Username := Sprint username
              Password := Sprint password
              Bucket := Sprint bucket
              Endpoint := (match parameters "endpoint" with
                | some endpoint => Sprint endpoint
                | none => "v0.api.upyun.com")
              RootDirectory := (match parameters "rootdirectory" with
                | some rootDirectory => Sprint rootDirectory
                | none => "") }

/-! ## Sequences of writer calls -/

/-- A call on a writer. -/
inductive WriterOp where
  | Write (p : List Byte)
  | Close
  | Commit
  | Cancel
  deriving DecidableEq, Repr

/-- One call on a writer: the writer and the backend state once the call has
returned (with or without an error). -/
def stepOp {σ : Type} (d : driver σ) (fuel : Nat) (op : WriterOp) (w : writer) (s : σ) :
    Res (writer × σ) :=
  match op with
  | .Write p => .ret ((w.Write p).2, s)
  | .Cancel => .ret (w.Cancel.2, s)
  | .Close =>
    match w.Close d fuel s with
    | .ret (_, w1, s1) => .ret (w1, s1)
    | .panicked => .panicked
    | .pending => .pending
  | .Commit =>
    match w.Commit d fuel s with
    | .ret (_, w1, s1) => .ret (w1, s1)
    | .panicked => .panicked
    | .pending => .pending

/-- A sequence of calls on a writer, each made after the previous one has
returned. -/
def runOps {σ : Type} (d : driver σ) (fuel : Nat) : List WriterOp → writer → σ → Res (writer × σ)
  | [], w, s => .ret (w, s)
  | op :: ops, w, s =>
    match stepOp d fuel op w s with
    | .ret (w1, s1) => runOps d fuel ops w1 s1
    | .panicked => .panicked
    | .pending => .pending

/-- A sequence of `Write` calls. -/
def writeAll (w : writer) (ps : List (List Byte)) : writer :=
  ps.foldl (fun v p => (v.Write p).2) w

/-! ## Backends used in the statements -/

/-- State of the immediately consistent store: the stored objects by key. -/
abbrev Store := List (String × List Byte)

/-- An immediately consistent key-to-bytes store: `Mkdir` succeeds, `Put`
stores the bytes, `GetInfo` reports the stored length, `Get` returns the
stored bytes. -/
def storeClient : Client Store where
  Mkdir := fun _ s => (none, s)
  Put := fun key body s => (none, (key, body) :: s.filter (fun e => e.1 != key))
  GetInfo := fun key s =>
    match s.lookup key with
    | some body => (⟨some ⟨(body.length : Int), key, "file"⟩, none⟩, s)
    | none => (⟨none, some "404 Not Found"⟩, s)
  Get := fun key s =>
    match s.lookup key with
    | some body => (⟨body, (body.length : Int), none⟩, s)
    | none => (⟨[], 0, some "404 Not Found"⟩, s)
  Delete := fun key s =>
    match s.lookup key with
    | some _ => (none, s.filter (fun e => e.1 != key))
    | none => (some "404 Not Found", s)
  AsyncDelete := fun key s => s.filter (fun e => e.1 != key)
  GetLargeList := fun key s =>
    (⟨(s.filter (fun e => (key.data ++ ['/']).isPrefixOf e.1.data)).map
        (fun e => ⟨(e.2.length : Int), String.mk (e.1.data.drop (key.data.length + 1)), "file"⟩),
      []⟩, s)

/-- The driver over the immediately consistent store. -/
def storeDriver (root : String) : driver Store := ⟨storeClient, root⟩

/-- The store with a backend that refuses every `Mkdir`. -/
def noMkdirDriver (root : String) : driver Store :=
  ⟨{ storeClient with Mkdir := fun _ s => (some "403 Forbidden", s) }, root⟩

/-- A backend whose metadata reports a five-byte file under every key while
every `Get` fails without delivering a byte. -/
def staleDriver : driver Unit :=
  ⟨{ Mkdir := fun _ s => (none, s)
     Put := fun _ _ s => (none, s)
     GetInfo := fun key s => (⟨some ⟨5, key, "file"⟩, none⟩, s)
     Get := fun _ s => (⟨[], 0, some "503 Service Unavailable"⟩, s)
     Delete := fun _ s => (none, s)
     AsyncDelete := fun _ s => s
     GetLargeList := fun _ s => (⟨[], []⟩, s) }, "/reg"⟩

/-- A client call, as recorded by the recording backend. -/
inductive Call where
  | Mkdir (key : String)
  | Put (key : String) (body : List Byte)
  | GetInfo (key : String)
  | Get (key : String)
  | Delete (key : String)
  | AsyncDelete (key : String)
  | GetLargeList (key : String)
  deriving DecidableEq, Repr

/-- A backend with fixed content, the folder `/a` with the one two-byte file
`/a/x`, whose state is the list of the calls it has received. -/
def dirDriver : driver (List Call) :=
  ⟨{ Mkdir := fun key log => (none, log ++ [.Mkdir key])
     Put := fun key body log => (none, log ++ [.Put key body])
     GetInfo := fun key log =>
       if key = "/a" then (⟨some ⟨0, "a", "folder"⟩, none⟩, log ++ [.GetInfo key])
       else if key = "/a/x" then (⟨some ⟨2, "x", "file"⟩, none⟩, log ++ [.GetInfo key])
       else (⟨none, some "404 Not Found"⟩, log ++ [.GetInfo key])
     Get := fun key log =>
       if key = "/a/x" then (⟨[7, 9], 2, none⟩, log ++ [.Get key])
       else (⟨[], 0, some "404 Not Found"⟩, log ++ [.Get key])
     Delete := fun key log => (none, log ++ [.Delete key])
     AsyncDelete := fun key log => log ++ [.AsyncDelete key]
     GetLargeList := fun key log =>
       if key = "/a" then (⟨[⟨2, "x", "file"⟩], []⟩, log ++ [.GetLargeList key])
       else (⟨[], ["404 Not Found"]⟩, log ++ [.GetLargeList key]) }, ""⟩

/-- A stand-in for the recursive `Move` call that records its two arguments. -/
def recordMove (sourcePath destPath : String) (log : List (String × String)) :
    Res (Option StorageError × List (String × String)) :=
  .ret (none, log ++ [(sourcePath, destPath)])

/-! ## Path translation -/

section PathFacts

theorem splitSlash_ne_nil (l : List Char) : splitSlash l ≠ [] := by
  cases l with
  | nil => simp [splitSlash]
  | cons c cs =>
    unfold splitSlash
    by_cases hc : c = '/'
    · simp [hc]
    · simp only [hc, if_false]
      cases splitSlash cs <;> simp

theorem splitSlash_append (a b : List Char) :
    splitSlash (a ++ '/' :: b) = splitSlash a ++ splitSlash b := by
  induction a with
  | nil => simp [splitSlash]
  | cons c cs ih =>
    by_cases hc : c = '/'
    · simp [splitSlash, hc, ih]
    · have hne := splitSlash_ne_nil cs
      cases hcs : splitSlash cs with
      | nil => exact absurd hcs hne
      | cons e es => simp [splitSlash, hc, ih, hcs]

theorem backtrackTo_ge (buf : List Char) (dotdot : Nat) :
    ∀ w : Nat, dotdot ≤ w → dotdot ≤ backtrackTo buf dotdot w := by
  intro w
  induction w with
  | zero => intro h; simpa [backtrackTo] using h
  | succ w ih =>
    intro h
    unfold backtrackTo
    split
    · rename_i hc
      exact ih (by omega)
    · exact h

theorem cleanElem_rooted_head (st : List Char × Nat) (e : List Char)
    (h : st.1.head? = some '/' ∧ 1 ≤ st.2) :
    (cleanElem true st e).1.head? = some '/' ∧ 1 ≤ (cleanElem true st e).2 := by
  obtain ⟨out, dotdot⟩ := st
  obtain ⟨hh, hd⟩ := h
  simp only at hh hd
  cases out with
  | nil => simp at hh
  | cons c rest =>
    simp only [List.head?_cons, Option.some.injEq] at hh
    subst hh
    unfold cleanElem
    by_cases h1 : e = []
    · simp [h1, hd]
    · by_cases h2 : e = ['.']
      · simp [h2, hd]
      · by_cases h3 : e = ['.', '.']
        · simp only [h3]
          by_cases h4 : dotdot < ('/' :: rest).length
          · simp only [h4, if_true]
            have hge := backtrackTo_ge ('/' :: rest) dotdot (('/' :: rest).length - 1) (by omega)
            obtain ⟨k, hk⟩ :
                ∃ k, backtrackTo ('/' :: rest) dotdot (('/' :: rest).length - 1) = k + 1 :=
              ⟨backtrackTo ('/' :: rest) dotdot (('/' :: rest).length - 1) - 1, by omega⟩
            rw [hk]
            simp [hd]
          · simp only [h4, if_false, Bool.not_true, Bool.false_eq_true]
            exact ⟨rfl, hd⟩
        · simp only [h1, h2, h3, if_false]
          refine ⟨?_, hd⟩
          split <;> simp

theorem foldl_cleanElem_rooted_head (es : List (List Char)) :
    ∀ st : List Char × Nat, (st.1.head? = some '/' ∧ 1 ≤ st.2) →
      (es.foldl (cleanElem true) st).1.head? = some '/' := by
  induction es with
  | nil => intro st h; exact h.1
  | cons e es ih =>
    intro st h
    exact ih _ (cleanElem_rooted_head st e h)

theorem foldl_cleanElem_grows (rooted : Bool) (es : List (List Char)) :
    ∀ st : List Char × Nat, (if rooted then 1 else 0) < st.1.length → ['.', '.'] ∉ es →
      ((es.foldl (cleanElem rooted) st).1 = st.1 ∨
        ∃ t, (es.foldl (cleanElem rooted) st).1 = st.1 ++ '/' :: t) := by
  induction es with
  | nil => intro st _ _; exact Or.inl rfl
  | cons e es ih =>
    intro st hlen hmem
    have hne : e ≠ ['.', '.'] := fun h => hmem (by simp [h])
    have hmem2 : ['.', '.'] ∉ es := fun h => hmem (List.mem_cons_of_mem _ h)
    simp only [List.foldl_cons]
    by_cases h1 : e = []
    · have hst : cleanElem rooted st e = st := by simp [cleanElem, h1]
      rw [hst]
      exact ih st hlen hmem2
    · by_cases h2 : e = ['.']
      · have hst : cleanElem rooted st e = st := by simp [cleanElem, h2]
        rw [hst]
        exact ih st hlen hmem2
      · have hcond : ((rooted && st.1.length != 1) || (!rooted && st.1.length != 0)) = true := by
          cases rooted
          · simp only [Bool.false_eq_true, if_false] at hlen
            have h0 : (st.1.length != 0) = true := by rw [bne_iff_ne]; omega
            rw [h0]
            rfl
          · simp only [if_true] at hlen
            have h0 : (st.1.length != 1) = true := by rw [bne_iff_ne]; omega
            rw [h0]
            rfl
        have hst : cleanElem rooted st e = (st.1 ++ ['/'] ++ e, st.2) := by
          simp only [cleanElem, h1, h2, hne, if_false, hcond, if_true]
        rw [hst]
        have hlen2 : (if rooted then 1 else 0) < (st.1 ++ ['/'] ++ e).length := by
          simp only [List.length_append]
          omega
        rcases ih (st.1 ++ ['/'] ++ e, st.2) hlen2 hmem2 with h | ⟨t, h⟩
        · exact Or.inr ⟨e, by rw [h]; simp⟩
        · exact Or.inr ⟨e ++ '/' :: t, by rw [h]; simp⟩

theorem cleanElem_skip (rooted : Bool) (st : List Char × Nat) (e : List Char)
    (h : e = [] ∨ e = ['.']) : cleanElem rooted st e = st := by
  rcases h with h | h <;> simp [cleanElem, h]

theorem cleanElem_named (rooted : Bool) (st : List Char × Nat) (e : List Char)
    (h1 : e ≠ []) (h2 : e ≠ ['.']) (h3 : e ≠ ['.', '.']) :
    cleanElem rooted st e =
      ((if (rooted && st.1.length != 1) || (!rooted && st.1.length != 0) then st.1 ++ ['/']
        else st.1) ++ e, st.2) := by
  simp only [cleanElem, h1, h2, h3, if_false]

theorem slash_needed (rooted : Bool) (n : Nat) (h : (if rooted then 1 else 0) < n) :
    ((rooted && n != 1) || (!rooted && n != 0)) = true := by
  cases rooted
  · simp only [Bool.false_eq_true, if_false] at h
    have h0 : (n != 0) = true := by rw [bne_iff_ne]; omega
    rw [h0]
    rfl
  · simp only [if_true] at h
    have h0 : (n != 1) = true := by rw [bne_iff_ne]; omega
    rw [h0]
    rfl

theorem slash_not_needed (rooted : Bool) (n : Nat) (h : n = (if rooted then 1 else 0)) :
    ((rooted && n != 1) || (!rooted && n != 0)) = false := by
  cases rooted
  · simp only [Bool.false_eq_true, if_false] at h
    subst h
    rfl
  · simp only [if_true] at h
    subst h
    rfl

theorem foldl_cleanElem_slashed (rooted : Bool) (es : List (List Char)) :
    ∀ st : List Char × Nat, (if rooted then 1 else 0) < st.1.length → ['.', '.'] ∉ es →
      (es.foldl (cleanElem rooted) st).1 =
        st.1 ++ slashed (es.filter (fun e => decide (e ≠ [] ∧ e ≠ ['.']))) := by
  induction es with
  | nil => intro st _ _; simp [slashed]
  | cons e es ih =>
    intro st hlen hmem
    have hne : e ≠ ['.', '.'] := fun h => hmem (by simp [h])
    have hmem2 : ['.', '.'] ∉ es := fun h => hmem (List.mem_cons_of_mem _ h)
    simp only [List.foldl_cons]
    by_cases h1 : e = []
    · rw [cleanElem_skip rooted st e (Or.inl h1), ih st hlen hmem2]
      simp [List.filter_cons, h1]
    · by_cases h2 : e = ['.']
      · rw [cleanElem_skip rooted st e (Or.inr h2), ih st hlen hmem2]
        simp [List.filter_cons, h2]
      · rw [cleanElem_named rooted st e h1 h2 hne, slash_needed rooted _ hlen]
        simp only [if_true]
        have hlen2 : (if rooted then 1 else 0) < (st.1 ++ ['/'] ++ e).length := by
          simp only [List.length_append]
          omega
        rw [ih (st.1 ++ ['/'] ++ e, st.2) hlen2 hmem2]
        simp [List.filter_cons, h1, h2, slashed]

theorem foldl_cleanElem_slashJoin (rooted : Bool) (es : List (List Char)) :
    ∀ st : List Char × Nat, st.1.length = (if rooted then 1 else 0) → ['.', '.'] ∉ es →
      (es.foldl (cleanElem rooted) st).1 =
        st.1 ++ slashJoin (es.filter (fun e => decide (e ≠ [] ∧ e ≠ ['.']))) := by
  induction es with
  | nil => intro st _ _; simp [slashJoin]
  | cons e es ih =>
    intro st hlen hmem
    have hne : e ≠ ['.', '.'] := fun h => hmem (by simp [h])
    have hmem2 : ['.', '.'] ∉ es := fun h => hmem (List.mem_cons_of_mem _ h)
    simp only [List.foldl_cons]
    by_cases h1 : e = []
    · rw [cleanElem_skip rooted st e (Or.inl h1), ih st hlen hmem2]
      simp [List.filter_cons, h1]
    · by_cases h2 : e = ['.']
      · rw [cleanElem_skip rooted st e (Or.inr h2), ih st hlen hmem2]
        simp [List.filter_cons, h2]
      · rw [cleanElem_named rooted st e h1 h2 hne, slash_not_needed rooted _ hlen]
        simp only [Bool.false_eq_true, if_false]
        have hpos : 0 < e.length := List.length_pos.mpr h1
        have hlen2 : (if rooted then 1 else 0) < (st.1 ++ e).length := by
          simp only [List.length_append]
          omega
        rw [foldl_cleanElem_slashed rooted es (st.1 ++ e, st.2) hlen2 hmem2]
        simp [List.filter_cons, h1, h2, slashJoin]

theorem slashJoin_eq_nil (es : List (List Char)) (h : ∀ e ∈ es, e ≠ [])
    (h0 : slashJoin es = []) : es = [] := by
  cases es with
  | nil => rfl
  | cons e es =>
    exfalso
    simp only [slashJoin, List.append_eq_nil] at h0
    exact h e (List.mem_cons_self _ _) h0.1

theorem namedElements_ne_nil (p : List Char) : ∀ e ∈ namedElements p, e ≠ [] := by
  intro e he
  unfold namedElements at he
  have := (List.mem_filter.mp he).2
  simp only [decide_eq_true_eq] at this
  exact this.1

theorem cleanBuf_collapsed (p : List Char) (h : ['.', '.'] ∉ splitSlash p) :
    cleanBuf p = (if (p.head? == some '/') then ['/'] else []) ++ slashJoin (namedElements p) := by
  unfold cleanBuf namedElements
  cases hr : (p.head? == some '/')
  · simp only [Bool.false_eq_true, if_false]
    rw [foldl_cleanElem_slashJoin false (splitSlash p) ([], 0) rfl h]
  · simp only [if_true]
    rw [foldl_cleanElem_slashJoin true (splitSlash p) (['/'], 1) rfl h]

theorem Clean_collapsed (p : String) (hne : p.data ≠ []) (h : ['.', '.'] ∉ splitSlash p.data) :
    Clean p = collapsedPath (p.data.head? == some '/') (namedElements p.data) := by
  unfold Clean collapsedPath
  rw [cleanBuf_collapsed p.data h]
  simp only [hne, if_false]
  cases hr : (p.data.head? == some '/')
  · simp only [Bool.false_eq_true, if_false, List.nil_append]
    by_cases hes : namedElements p.data = []
    · simp [hes, slashJoin]
    · have hj : slashJoin (namedElements p.data) ≠ [] :=
        fun h0 => hes (slashJoin_eq_nil _ (namedElements_ne_nil p.data) h0)
      have hl : (slashJoin (namedElements p.data)).length ≠ 0 := by
        intro h0
        exact hj (List.length_eq_zero.mp h0)
      simp only [hl, hes, if_false]
  · simp

theorem splitSlash_no_slash (l : List Char) : ∀ e ∈ splitSlash l, '/' ∉ e := by
  induction l with
  | nil => intro e he; simp [splitSlash] at he; simp [he]
  | cons c cs ih =>
    intro e he
    unfold splitSlash at he
    by_cases hc : c = '/'
    · simp only [hc, if_true, List.mem_cons] at he
      rcases he with he | he
      · simp [he]
      · exact ih e he
    · simp only [hc, if_false] at he
      cases hcs : splitSlash cs with
      | nil =>
        rw [hcs] at he
        simp only [List.mem_singleton] at he
        rw [he]
        simp only [List.mem_singleton]
        exact fun h => hc h.symm
      | cons e1 es =>
        rw [hcs] at he ih
        simp only [List.mem_cons] at he
        rcases he with he | he
        · rw [he]
          intro hm
          rcases List.mem_cons.mp hm with h | h
          · exact hc h.symm
          · exact ih e1 (List.mem_cons_self _ _) h
        · exact ih e (List.mem_cons_of_mem _ he)

theorem backtrackTo_stop (buf : List Char) (dotdot : Nat) :
    ∀ w : Nat, backtrackTo buf dotdot w ≤ dotdot ∨
      buf.getD (backtrackTo buf dotdot w) '/' = '/' := by
  intro w
  induction w with
  | zero => left; simp [backtrackTo]
  | succ w ih =>
    unfold backtrackTo
    split
    · exact ih
    · rename_i hc
      by_cases hd : dotdot < w + 1
      · right
        by_contra hne
        exact hc ⟨hd, hne⟩
      · left
        omega

theorem relHead_take (buf : List Char) (dotdot : Nat) (hd : dotdot = 0 ∨ 2 ≤ dotdot)
    (hlt : dotdot < buf.length) (h : relHead buf) :
    relHead (buf.take (backtrackTo buf dotdot (buf.length - 1))) := by
  have hge := backtrackTo_ge buf dotdot (buf.length - 1) (by omega)
  have hstop := backtrackTo_stop buf dotdot (buf.length - 1)
  generalize backtrackTo buf dotdot (buf.length - 1) = k at hge hstop
  match buf, h, hlt, hstop with
  | [], _, hlt, _ => simp at hlt
  | [c], h, _, _ =>
    match k with
    | 0 => simp [relHead]
    | k + 1 => simpa using h
  | c :: c2 :: rest, h, _, hstop =>
    match k, hge, hstop with
    | 0, _, _ => simp [relHead]
    | 1, hge, hstop =>
      simp only [relHead] at h
      simp only [List.take_succ_cons, List.take_zero, relHead]
      refine ⟨h.1, ?_⟩
      intro hc
      rcases hstop with hs | hs
      · omega
      · simp only [List.getD_cons_succ, List.getD_cons_zero] at hs
        exact h.2 hc hs
    | k + 2, _, _ => simpa [relHead] using h

theorem cleanElem_relHead (st : List Char × Nat) (e : List Char) (hslash : '/' ∉ e)
    (h : (st.2 = 0 ∨ 2 ≤ st.2) ∧ relHead st.1) :
    ((cleanElem false st e).2 = 0 ∨ 2 ≤ (cleanElem false st e).2) ∧
      relHead (cleanElem false st e).1 := by
  obtain ⟨buf, dotdot⟩ := st
  obtain ⟨hd, hb⟩ := h
  simp only at hd hb
  by_cases h1 : e = []
  · rw [cleanElem_skip false _ e (Or.inl h1)]
    exact ⟨hd, hb⟩
  · by_cases h2 : e = ['.']
    · rw [cleanElem_skip false _ e (Or.inr h2)]
      exact ⟨hd, hb⟩
    · by_cases h3 : e = ['.', '.']
      · subst h3
        by_cases h4 : dotdot < buf.length
        · have hE : cleanElem false (buf, dotdot) ['.', '.'] =
              (buf.take (backtrackTo buf dotdot (buf.length - 1)), dotdot) := by
            simp [cleanElem, h4]
          rw [hE]
          exact ⟨hd, relHead_take buf dotdot hd h4 hb⟩
        · have hE : cleanElem false (buf, dotdot) ['.', '.'] =
              ((if 0 < buf.length then buf ++ ['/'] else buf) ++ ['.', '.'],
               ((if 0 < buf.length then buf ++ ['/'] else buf) ++ ['.', '.']).length) := by
            simp [cleanElem, h4]
          rw [hE]
          refine ⟨Or.inr (by simp), ?_⟩
          match buf, hb with
          | [], _ => simp [relHead]
          | [c], hb =>
            simp only [relHead] at hb
            simp [relHead, hb.1, hb.2]
          | c :: c2 :: rest, hb => simpa [relHead] using hb
      · rw [cleanElem_named false _ e h1 h2 h3]
        refine ⟨hd, ?_⟩
        match buf, hb with
        | [], _ =>
          match e, h1, h2, hslash with
          | [e0], _, h2, hslash =>
            simp only [List.mem_singleton] at hslash
            have h0 : e0 ≠ '.' := fun hx => h2 (by rw [hx])
            have h00 : e0 ≠ '/' := fun hx => hslash hx.symm
            simp [relHead, h0, h00]
          | e0 :: e1 :: er, _, _, hslash =>
            simp only [List.mem_cons, not_or] at hslash
            have h00 : e0 ≠ '/' := fun hx => hslash.1 hx.symm
            have h01 : e1 ≠ '/' := fun hx => hslash.2.1 hx.symm
            simp [relHead, h00, h01]
        | [c], hb =>
          simp only [relHead] at hb
          simp [relHead, hb.1, hb.2]
        | c :: c2 :: rest, hb => simpa [relHead] using hb

theorem foldl_cleanElem_relHead (es : List (List Char)) :
    ∀ st : List Char × Nat, (∀ e ∈ es, '/' ∉ e) → ((st.2 = 0 ∨ 2 ≤ st.2) ∧ relHead st.1) →
      relHead (es.foldl (cleanElem false) st).1 := by
  induction es with
  | nil => intro st _ h; exact h.2
  | cons e es ih =>
    intro st hes h
    exact ih _ (fun x hx => hes x (List.mem_cons_of_mem _ hx))
      (cleanElem_relHead st e (hes e (List.mem_cons_self _ _)) h)

theorem cleanBuf_relHead (p : List Char) (hr : (p.head? == some '/') = false) :
    relHead (cleanBuf p) := by
  unfold cleanBuf
  simp only [hr, Bool.false_eq_true, if_false]
  exact foldl_cleanElem_relHead (splitSlash p) ([], 0) (splitSlash_no_slash p)
    ⟨Or.inl rfl, trivial⟩

theorem cleanBuf_length_of_Clean (root : String) (hdot : Clean root ≠ ".")
    (hslash : Clean root ≠ "/") :
    root.data ≠ [] ∧ Clean root = String.mk (cleanBuf root.data) ∧
    (if (root.data.head? == some '/') then 1 else 0) < (cleanBuf root.data).length := by
  have hr : root.data ≠ [] := by
    intro h
    apply hdot
    unfold Clean
    simp [h]
  have hb0 : (cleanBuf root.data).length ≠ 0 := by
    intro h
    apply hdot
    unfold Clean
    simp [hr, h]
  have hC : Clean root = String.mk (cleanBuf root.data) := by
    unfold Clean
    simp only [hr, hb0, if_false]
  refine ⟨hr, hC, ?_⟩
  cases hrooted : (root.data.head? == some '/')
  · simp only [Bool.false_eq_true, if_false]
    omega
  · simp only [if_true]
    have hbuf : cleanBuf root.data =
        ((splitSlash root.data).foldl (cleanElem true) (['/'], 1)).1 := by
      unfold cleanBuf
      simp only [hrooted, if_true]
    have hh := foldl_cleanElem_rooted_head (splitSlash root.data) (['/'], 1) ⟨rfl, le_refl 1⟩
    rw [← hbuf] at hh
    cases hcb : cleanBuf root.data with
    | nil => rw [hcb] at hh; simp at hh
    | cons c rest =>
      rw [hcb] at hh
      simp only [List.head?_cons, Option.some.injEq] at hh
      cases rest with
      | nil =>
        exfalso
        apply hslash
        rw [hC, hcb, hh]
      | cons c2 rest2 => simp

theorem cleanBuf_join (root sub : String) (hr : root.data ≠ []) :
    cleanBuf (root ++ "/" ++ sub).data =
      ((splitSlash sub.data).foldl (cleanElem (root.data.head? == some '/'))
        ((splitSlash root.data).foldl (cleanElem (root.data.head? == some '/'))
          (if (root.data.head? == some '/') then (['/'], 1) else ([], 0)))).1 := by
  have hX : (root ++ "/" ++ sub).data = root.data ++ '/' :: sub.data := by
    simp only [String.data_append, List.append_assoc]
    rfl
  have hhead : (root.data ++ '/' :: sub.data).head? = root.data.head? := by
    cases hrd : root.data with
    | nil => exact absurd hrd hr
    | cons c cs => rfl
  unfold cleanBuf
  simp only [hX, hhead, splitSlash_append, List.foldl_append]

theorem Clean_of_data_ne_nil (p : String) (hne : p.data ≠ []) :
    Clean p = if (cleanBuf p.data).length = 0 then "." else String.mk (cleanBuf p.data) := by
  unfold Clean
  simp only [hne, if_false]

theorem mk_ne_of_ne (buf : List Char) (t : List Char) (h : buf ≠ t) :
    String.mk buf ≠ String.mk t := by
  intro h0
  exact h (by simpa using congrArg String.data h0)

theorem underRoot_of_long (buf : List Char) (es : List (List Char)) (h1 : buf ≠ ['/'])
    (h2 : buf ≠ ['.']) :
    String.mk (buf ++ slashed es) = underRoot (String.mk buf) es := by
  cases es with
  | nil => simp [underRoot, slashed]
  | cons e rest =>
    have hs : String.mk buf ≠ "/" := mk_ne_of_ne buf ['/'] h1
    have hd : String.mk buf ≠ "." := mk_ne_of_ne buf ['.'] h2
    unfold underRoot
    simp only [List.cons_ne_nil, if_false, hs, hd]
    apply String.ext
    simp only [String.data_append, slashed, slashJoin, List.append_assoc]
    rfl

theorem underRoot_dot (es : List (List Char)) (h : ∀ e ∈ es, e ≠ []) :
    (if (slashJoin es).length = 0 then "." else String.mk (slashJoin es)) = underRoot "." es := by
  cases es with
  | nil => simp [slashJoin, underRoot]
  | cons e rest =>
    have he : e ≠ [] := h e (List.mem_cons_self _ _)
    have hl : (slashJoin (e :: rest)).length ≠ 0 := by
      have : 0 < e.length := List.length_pos.mpr he
      simp only [slashJoin, List.length_append]
      omega
    have hdot : ¬ ("." = "/") := by decide
    unfold underRoot
    simp only [hl, hdot, List.cons_ne_nil, if_false, if_true]

theorem underRoot_slash (es : List (List Char)) :
    String.mk ('/' :: slashJoin es) = underRoot "/" es := by
  cases es with
  | nil => rfl
  | cons e rest =>
    unfold underRoot
    simp only [List.cons_ne_nil, if_false, if_true]

theorem fold_underRoot (rooted : Bool) (buf : List Char) (dotdot : Nat)
    (raw : List (List Char)) (hno : ['.', '.'] ∉ raw)
    (hhead : rooted = true → ∃ rest, buf = '/' :: rest)
    (hrel : rooted = false → relHead buf) :
    (if ((raw.foldl (cleanElem rooted) (buf, dotdot)).1).length = 0 then "."
      else String.mk ((raw.foldl (cleanElem rooted) (buf, dotdot)).1)) =
      underRoot (if buf.length = 0 then "." else String.mk buf)
        (raw.filter (fun e => decide (e ≠ [] ∧ e ≠ ['.']))) := by
  have hnamed : ∀ e ∈ raw.filter (fun e => decide (e ≠ [] ∧ e ≠ ['.'])), e ≠ [] := by
    intro e he
    have := (List.mem_filter.mp he).2
    simp only [decide_eq_true_eq] at this
    exact this.1
  cases rooted with
  | false =>
    have hr := hrel rfl
    match buf, hr with
    | [], _ =>
      rw [foldl_cleanElem_slashJoin false raw ([], dotdot) rfl hno]
      simp only [List.nil_append, List.length_nil, if_true]
      exact underRoot_dot _ hnamed
    | c :: rest, hr =>
      rw [foldl_cleanElem_slashed false raw (c :: rest, dotdot) (by simp) hno]
      have hl : ((c :: rest) ++ slashed
          (raw.filter (fun e => decide (e ≠ [] ∧ e ≠ ['.'])))).length ≠ 0 := by simp
      have hl2 : (c :: rest).length ≠ 0 := by simp
      simp only [hl, hl2, if_false]
      apply underRoot_of_long
      · intro h
        rw [h] at hr
        simp [relHead] at hr
      · intro h
        rw [h] at hr
        simp [relHead] at hr
  | true =>
    obtain ⟨rest, hb⟩ := hhead rfl
    subst hb
    cases rest with
    | nil =>
      rw [foldl_cleanElem_slashJoin true raw (['/'], dotdot) rfl hno]
      have hl : (['/'] ++ slashJoin
          (raw.filter (fun e => decide (e ≠ [] ∧ e ≠ ['.'])))).length ≠ 0 := by simp
      have hroot : (if (['/'] : List Char).length = 0 then "." else String.mk ['/']) = "/" :=
        rfl
      rw [hroot]
      simp only [hl, if_false]
      exact underRoot_slash _
    | cons c2 rest2 =>
      rw [foldl_cleanElem_slashed true raw ('/' :: c2 :: rest2, dotdot) (by simp) hno]
      have hl : (('/' :: c2 :: rest2) ++ slashed
          (raw.filter (fun e => decide (e ≠ [] ∧ e ≠ ['.'])))).length ≠ 0 := by simp
      have hl2 : ('/' :: c2 :: rest2).length ≠ 0 := by simp
      simp only [hl, hl2, if_false]
      apply underRoot_of_long <;> simp

theorem cleanBuf_rooted_cons (p : List Char) (hr : (p.head? == some '/') = true) :
    ∃ rest, cleanBuf p = '/' :: rest := by
  have hh := foldl_cleanElem_rooted_head (splitSlash p) (['/'], 1) ⟨rfl, le_refl 1⟩
  have hbuf : cleanBuf p = ((splitSlash p).foldl (cleanElem true) (['/'], 1)).1 := by
    unfold cleanBuf
    simp only [hr, if_true]
  rw [← hbuf] at hh
  cases hcb : cleanBuf p with
  | nil => rw [hcb] at hh; simp at hh
  | cons c rest =>
    rw [hcb] at hh
    simp only [List.head?_cons, Option.some.injEq] at hh
    exact ⟨rest, by rw [hh]⟩

theorem Clean_join_underRoot (root sub : String) (hr : root.data ≠ [])
    (hsub : ['.', '.'] ∉ splitSlash sub.data) :
    Clean (root ++ "/" ++ sub) = underRoot (Clean root) (namedElements sub.data) := by
  have hbuf := cleanBuf_join root sub hr
  have hXne : (root ++ "/" ++ sub).data ≠ [] := by
    simp only [String.data_append, List.append_assoc]
    intro h
    exact hr (List.append_eq_nil.mp h).1
  have hst : ((splitSlash root.data).foldl (cleanElem (root.data.head? == some '/'))
      (if (root.data.head? == some '/') then (['/'], 1) else ([], 0))).1 =
      cleanBuf root.data := rfl
  rw [Clean_of_data_ne_nil _ hXne, Clean_of_data_ne_nil _ hr, hbuf]
  generalize (splitSlash root.data).foldl (cleanElem (root.data.head? == some '/'))
      (if (root.data.head? == some '/') then (['/'], 1) else ([], 0)) = st at hst
  obtain ⟨buf, dotdot⟩ := st
  simp only at hst
  subst hst
  unfold namedElements
  exact fold_underRoot _ _ dotdot _ hsub (fun h => cleanBuf_rooted_cons root.data h)
    (fun h => cleanBuf_relHead root.data h)

/-- C9 as stated fails: with root `/reg` the sub-path `../etc` is translated to
`/etc`, outside the root; and for the roots `/` and the empty string the
sub-path `a` gives `/a` and `a`, which neither equal the cleaned root (`/`,
`.`) nor start with the cleaned root followed by `/` (`//`, `./`). -/
theorem fullPath_root_formula_fails :
    ((storeDriver "/reg").fullPath "../etc" = "/etc" ∧ Clean "/reg" = "/reg" ∧
      ¬ ((storeDriver "/reg").fullPath "../etc" = Clean "/reg" ∨
        ∃ t, ((storeDriver "/reg").fullPath "../etc").data = (Clean "/reg" ++ "/").data ++ t)) ∧
    ((storeDriver "/").fullPath "a" = "/a" ∧ Clean "/" = "/" ∧
      ¬ ((storeDriver "/").fullPath "a" = Clean "/" ∨
        ∃ t, ((storeDriver "/").fullPath "a").data = (Clean "/" ++ "/").data ++ t)) ∧
    ((storeDriver "").fullPath "a" = "a" ∧ Clean "" = "." ∧
      ¬ ((storeDriver "").fullPath "a" = Clean "" ∨
        ∃ t, ((storeDriver "").fullPath "a").data = (Clean "" ++ "/").data ++ t)) := by
  have h1 : (storeDriver "/reg").fullPath "../etc" = "/etc" := by decide
  have h2 : Clean "/reg" = "/reg" := by decide
  have h3 : (storeDriver "/").fullPath "a" = "/a" := by decide
  have h4 : Clean "/" = "/" := by decide
  have h5 : (storeDriver "").fullPath "a" = "a" := by decide
  have h6 : Clean "" = "." := by decide
  refine ⟨⟨h1, h2, ?_⟩, ⟨h3, h4, ?_⟩, ⟨h5, h6, ?_⟩⟩
  · rw [h1, h2]
    rintro (h | ⟨t, h⟩)
    · exact absurd h (by decide)
    · have h7 : ['/', 'e', 't', 'c'] = '/' :: 'r' :: 'e' :: 'g' :: '/' :: t := h
      simp at h7
  · rw [h3, h4]
    rintro (h | ⟨t, h⟩)
    · exact absurd h (by decide)
    · have h7 : ['/', 'a'] = '/' :: '/' :: t := h
      simp at h7
  · rw [h5, h6]
    rintro (h | ⟨t, h⟩)
    · exact absurd h (by decide)
    · have h7 : ['a'] = '.' :: '/' :: t := h
      simp at h7

theorem fullPath_below_root {σ : Type} (d : driver σ) (sub : String)
    (hdot : Clean d.rootDirectory ≠ ".") (hslash : Clean d.rootDirectory ≠ "/")
    (hsub : ['.', '.'] ∉ splitSlash sub.data) :
    d.fullPath sub = Clean (d.rootDirectory ++ "/" ++ sub) ∧
    (d.fullPath sub = Clean d.rootDirectory ∨
      ∃ t, (d.fullPath sub).data = (Clean d.rootDirectory ++ "/").data ++ t) := by
  obtain ⟨hr, hC, hlen⟩ := cleanBuf_length_of_Clean d.rootDirectory hdot hslash
  have hne : (d.rootDirectory == "") = false := by
    rw [beq_eq_false_iff_ne]
    intro h
    apply hr
    rw [h]
  have hJoin : d.fullPath sub = Clean (d.rootDirectory ++ "/" ++ sub) := by
    unfold driver.fullPath Join
    simp [List.dropWhile, hne, stringsJoin]
  refine ⟨hJoin, ?_⟩
  rw [hJoin]
  have hbuf := cleanBuf_join d.rootDirectory sub hr
  have hst : ((splitSlash d.rootDirectory.data).foldl
      (cleanElem (d.rootDirectory.data.head? == some '/'))
      (if (d.rootDirectory.data.head? == some '/') then (['/'], 1) else ([], 0))).1 =
      cleanBuf d.rootDirectory.data := rfl
  have hgrow := foldl_cleanElem_grows (d.rootDirectory.data.head? == some '/')
    (splitSlash sub.data) _ (by rw [hst]; exact hlen) hsub
  rw [← hbuf, hst] at hgrow
  have hXne : (d.rootDirectory ++ "/" ++ sub).data ≠ [] := by
    simp only [String.data_append, List.append_assoc]
    intro h
    exact hr (List.append_eq_nil.mp h).1
  have hpos : 0 < (cleanBuf d.rootDirectory.data).length := by
    split at hlen <;> omega
  have hXlen : (cleanBuf (d.rootDirectory ++ "/" ++ sub).data).length ≠ 0 := by
    rcases hgrow with h | ⟨t, h⟩
    · rw [h]; omega
    · rw [h]; simp
  have hCX : Clean (d.rootDirectory ++ "/" ++ sub) =
      String.mk (cleanBuf (d.rootDirectory ++ "/" ++ sub).data) := by
    unfold Clean
    simp only [hXne, hXlen, if_false]
  rw [hCX, hC]
  rcases hgrow with h | ⟨t, h⟩
  · exact Or.inl (by rw [h])
  · refine Or.inr ⟨t, ?_⟩
    rw [h]
    simp only [String.data_append, List.append_assoc]
    rfl

theorem data_ne_nil_of_ne_empty (p : String) (h : p ≠ "") : p.data ≠ [] := by
  intro h0
  apply h
  apply String.ext
  rw [h0]

theorem fullPath_of_root_ne_empty {σ : Type} (d : driver σ) (sub : String)
    (h : d.rootDirectory ≠ "") : d.fullPath sub = Clean (d.rootDirectory ++ "/" ++ sub) := by
  have hne : (d.rootDirectory == "") = false := by
    rw [beq_eq_false_iff_ne]
    exact h
  unfold driver.fullPath Join
  simp [List.dropWhile, hne, stringsJoin]

/-- C9 amended: for every root directory and every sub-path without a `..`
element, `fullPath(sub)` is the separator-collapsed join of root and sub.
With the empty root it is the collapsed sub-path itself.  With any other root
it is the cleaned root followed by the elements of sub that are neither empty
nor `.`, each after a single `/` (the cleaned root `/` is not followed by a
second `/`, the cleaned root `.` is left out), and when the root has no `..`
element either it is the collapsed path of the elements of root and sub.  So
the result equals the cleaned root or starts with the cleaned root followed by
`/` whenever the cleaned root is neither `.` nor `/`, and starts with `/` when
the cleaned root is `/`. -/
theorem fullPath_collapsed_join {σ : Type} (d : driver σ) (sub : String)
    (hsub : ['.', '.'] ∉ splitSlash sub.data) :
    (d.rootDirectory = "" →
      d.fullPath sub =
        if sub = "" then ""
        else collapsedPath (sub.data.head? == some '/') (namedElements sub.data)) ∧
    (d.rootDirectory ≠ "" →
      d.fullPath sub = underRoot (Clean d.rootDirectory) (namedElements sub.data)) ∧
    (d.rootDirectory ≠ "" → ['.', '.'] ∉ splitSlash d.rootDirectory.data →
      d.fullPath sub =
        collapsedPath (d.rootDirectory.data.head? == some '/')
          (namedElements d.rootDirectory.data ++ namedElements sub.data)) ∧
    (Clean d.rootDirectory ≠ "." → Clean d.rootDirectory ≠ "/" →
      (d.fullPath sub = Clean d.rootDirectory ∨
        ∃ t, (d.fullPath sub).data = (Clean d.rootDirectory ++ "/").data ++ t)) ∧
    (Clean d.rootDirectory = "/" → ∃ t, (d.fullPath sub).data = '/' :: t) := by
  have hJ2 : d.rootDirectory ≠ "" →
      d.fullPath sub = underRoot (Clean d.rootDirectory) (namedElements sub.data) := by
    intro h
    rw [fullPath_of_root_ne_empty d sub h]
    exact Clean_join_underRoot _ _ (data_ne_nil_of_ne_empty _ h) hsub
  refine ⟨?_, hJ2, ?_, ?_, ?_⟩
  · intro h
    unfold driver.fullPath Join
    rw [h]
    by_cases hs : sub = ""
    · simp [List.dropWhile, hs]
    · have hne : (sub == "") = false := by
        rw [beq_eq_false_iff_ne]
        exact hs
      simp only [List.dropWhile, beq_self_eq_true, hne, stringsJoin, hs, if_false]
      exact Clean_collapsed sub (data_ne_nil_of_ne_empty _ hs) hsub
  · intro h hroot
    have hr := data_ne_nil_of_ne_empty _ h
    rw [fullPath_of_root_ne_empty d sub h]
    have hX : (d.rootDirectory ++ "/" ++ sub).data = d.rootDirectory.data ++ '/' :: sub.data := by
      simp only [String.data_append, List.append_assoc]
      rfl
    have hXne : (d.rootDirectory ++ "/" ++ sub).data ≠ [] := by
      rw [hX]
      intro h0
      exact hr (List.append_eq_nil.mp h0).1
    have hXno : ['.', '.'] ∉ splitSlash (d.rootDirectory ++ "/" ++ sub).data := by
      rw [hX, splitSlash_append]
      intro hm
      rcases List.mem_append.mp hm with hm | hm
      · exact hroot hm
      · exact hsub hm
    rw [Clean_collapsed _ hXne hXno, hX]
    have hhead : (d.rootDirectory.data ++ '/' :: sub.data).head? = d.rootDirectory.data.head? := by
      cases hrd : d.rootDirectory.data with
      | nil => exact absurd hrd hr
      | cons c cs => rfl
    rw [hhead]
    unfold namedElements
    rw [splitSlash_append, List.filter_append]
  · intro hdot hslash
    exact (fullPath_below_root d sub hdot hslash hsub).2
  · intro hroot
    have hne : d.rootDirectory ≠ "" := by
      intro h0
      rw [h0] at hroot
      exact absurd hroot (by decide)
    rw [hJ2 hne, hroot, ← underRoot_slash]
    exact ⟨_, rfl⟩

/-- C9 amended, at concrete inputs: root `/reg` with the sub-paths `/a/b.txt`
and `//a/./b.txt` gives exactly `/reg/a/b.txt`, below `/reg/`; the root `/`
and the empty root give `/a/b.txt`. -/
theorem fullPath_collapsed_join_witness :
    (storeDriver "/reg").fullPath "/a/b.txt" = "/reg/a/b.txt" ∧
    (storeDriver "/reg").fullPath "//a/./b.txt" = "/reg/a/b.txt" ∧
    ((storeDriver "/reg").fullPath "//a/./b.txt" = Clean (storeDriver "/reg").rootDirectory ∨
      ∃ t, ((storeDriver "/reg").fullPath "//a/./b.txt").data =
        (Clean (storeDriver "/reg").rootDirectory ++ "/").data ++ t) ∧
    (storeDriver "/").fullPath "/a/b.txt" = "/a/b.txt" ∧
    (storeDriver "").fullPath "/a/b.txt" = "/a/b.txt" :=
  ⟨((fullPath_collapsed_join (storeDriver "/reg") "/a/b.txt" (by decide)).2.1
      (by decide)).trans (by decide),
   ((fullPath_collapsed_join (storeDriver "/reg") "//a/./b.txt" (by decide)).2.2.1
      (by decide) (by decide)).trans (by decide),
   (fullPath_collapsed_join (storeDriver "/reg") "//a/./b.txt" (by decide)).2.2.2.1
      (by decide) (by decide),
   ((fullPath_collapsed_join (storeDriver "/") "/a/b.txt" (by decide)).2.1
      (by decide)).trans (by decide),
   ((fullPath_collapsed_join (storeDriver "") "/a/b.txt" (by decide)).1
      (by decide)).trans (by decide)⟩

end PathFacts

/-! ## The buffered writer -/

section WriterFacts

variable {σ : Type}

theorem wrap64_of_range (x : Int) (h0 : 0 ≤ x) (h1 : x < 2 ^ 63) : wrap64 x = x := by
  unfold wrap64
  omega

theorem newWriter_fields (d : driver σ) (key : String) (size : Int) (s : σ) :
    (d.newWriter key size s).1.size = size ∧
    (d.newWriter key size s).1.readyPart =
      (if 0 < size then (d.Client.Get (d.fullPath key) s).1.written else []) ∧
    (d.newWriter key size s).1.closed = false ∧
    (d.newWriter key size s).1.committed = false ∧
    (d.newWriter key size s).1.cancelled = false := by
  unfold driver.newWriter
  by_cases h : 0 < size
  · simp only [h, if_true]
    cases (d.Client.Get (d.fullPath key) s).1.err <;> simp
  · simp [h]

theorem Writer_flags (d : driver σ) (path : String) (append : Bool) (s0 s1 : σ) (w0 : writer)
    (hW : d.Writer path append s0 = .ret (.ok w0, s1)) :
    w0.closed = false ∧ w0.committed = false ∧ w0.cancelled = false := by
  unfold driver.Writer at hW
  cases append
  · simp only [Bool.false_eq_true, if_false, Res.ret.injEq, Prod.mk.injEq, Except.ok.injEq] at hW
    rw [← hW.1]
    exact (newWriter_fields d path 0 s0).2.2
  · simp only [if_true] at hW
    cases herr : (d.Client.GetInfo (d.fullPath path) s0).1.err with
    | some e => simp [herr] at hW
    | none =>
      cases hinfo : (d.Client.GetInfo (d.fullPath path) s0).1.info with
      | none => simp [herr, hinfo] at hW
      | some fi =>
        simp only [herr, hinfo, Res.ret.injEq, Prod.mk.injEq, Except.ok.injEq] at hW
        rw [← hW.1]
        exact (newWriter_fields d path fi.Size _).2.2

theorem Close_keeps_commit_cancel (d : driver σ) (w w1 : writer) (fuel : Nat) (s s1 : σ)
    (e : Option StorageError) (h : w.Close d fuel s = .ret (e, w1, s1)) :
    w1.committed = w.committed ∧ w1.cancelled = w.cancelled := by
  unfold writer.Close at h
  cases hc : w.closed
  · rw [hc] at h
    simp only [Bool.false_eq_true, if_false] at h
    cases hu : uploadLoop d w.key (d.fullPath w.key) w.readyPart fuel s with
    | panicked => rw [hu] at h; cases h
    | pending => rw [hu] at h; cases h
    | ret r =>
      obtain ⟨e1, s2⟩ := r
      rw [hu] at h
      cases e1 <;>
        (simp only [Res.ret.injEq, Prod.mk.injEq] at h
         rw [← h.2.1]
         exact ⟨rfl, rfl⟩)
  · rw [hc] at h
    simp only [if_true, Res.ret.injEq, Prod.mk.injEq] at h
    rw [← h.2.1]
    exact ⟨rfl, rfl⟩

theorem Commit_not_both (d : driver σ) (w w1 : writer) (fuel : Nat) (s s1 : σ)
    (e : Option StorageError) (hinv : ¬ (w.committed = true ∧ w.cancelled = true))
    (h : w.Commit d fuel s = .ret (e, w1, s1)) :
    ¬ (w1.committed = true ∧ w1.cancelled = true) := by
  unfold writer.Commit at h
  cases hc : w.closed
  · cases hm : w.committed
    · cases hx : w.cancelled
      · rw [hc, hm, hx] at h
        simp only [Bool.false_eq_true, if_false] at h
        cases hu : uploadLoop d w.key (d.fullPath w.key) w.readyPart fuel s with
        | panicked => rw [hu] at h; cases h
        | pending => rw [hu] at h; cases h
        | ret r =>
          obtain ⟨e1, s2⟩ := r
          rw [hu] at h
          simp only [Res.ret.injEq, Prod.mk.injEq] at h
          rw [← h.2.1]
          simp [hx]
      · rw [hc, hm, hx] at h
        simp only [Bool.false_eq_true, if_false, if_true, Res.ret.injEq, Prod.mk.injEq] at h
        rw [← h.2.1]
        exact hinv
    · rw [hc, hm] at h
      simp only [Bool.false_eq_true, if_false, if_true, Res.ret.injEq, Prod.mk.injEq] at h
      rw [← h.2.1]
      exact hinv
  · rw [hc] at h
    simp only [if_true, Res.ret.injEq, Prod.mk.injEq] at h
    rw [← h.2.1]
    exact hinv

theorem Cancel_not_both (w : writer) (hinv : ¬ (w.committed = true ∧ w.cancelled = true)) :
    ¬ (w.Cancel.2.committed = true ∧ w.Cancel.2.cancelled = true) := by
  unfold writer.Cancel
  by_cases hc : w.closed = true
  · simpa [hc] using hinv
  · by_cases hm : w.committed = true
    · simpa [hc, hm] using hinv
    · simp [hc, hm]

theorem stepOp_not_both (d : driver σ) (fuel : Nat) (op : WriterOp) (w w1 : writer) (s s1 : σ)
    (hinv : ¬ (w.committed = true ∧ w.cancelled = true))
    (h : stepOp d fuel op w s = .ret (w1, s1)) :
    ¬ (w1.committed = true ∧ w1.cancelled = true) := by
  cases op with
  | Write p =>
    simp only [stepOp, Res.ret.injEq, Prod.mk.injEq] at h
    rw [← h.1]
    exact hinv
  | Cancel =>
    simp only [stepOp, Res.ret.injEq, Prod.mk.injEq] at h
    rw [← h.1]
    exact Cancel_not_both w hinv
  | Close =>
    simp only [stepOp] at h
    split at h
    · rename_i e w2 s2 hcl
      simp only [Res.ret.injEq, Prod.mk.injEq] at h
      have hk := Close_keeps_commit_cancel d w w2 fuel s s2 e hcl
      rw [← h.1, hk.1, hk.2]
      exact hinv
    · cases h
    · cases h
  | Commit =>
    simp only [stepOp] at h
    split at h
    · rename_i e w2 s2 hcm
      simp only [Res.ret.injEq, Prod.mk.injEq] at h
      rw [← h.1]
      exact Commit_not_both d w w2 fuel s s2 e hinv hcm
    · cases h
    · cases h

theorem runOps_not_both (d : driver σ) (fuel : Nat) (ops : List WriterOp) :
    ∀ (w w1 : writer) (s s1 : σ), ¬ (w.committed = true ∧ w.cancelled = true) →
      runOps d fuel ops w s = .ret (w1, s1) → ¬ (w1.committed = true ∧ w1.cancelled = true) := by
  induction ops with
  | nil =>
    intro w w1 s s1 hinv h
    simp only [runOps, Res.ret.injEq, Prod.mk.injEq] at h
    rw [← h.1]
    exact hinv
  | cons op ops ih =>
    intro w w1 s s1 hinv h
    simp only [runOps] at h
    split at h
    · rename_i w2 s2 hstep
      exact ih w2 w1 s2 s1 (stepOp_not_both d fuel op w w2 s s2 hinv hstep) h
    · cases h
    · cases h

theorem writeAll_size (ps : List (List Byte)) :
    ∀ w : writer, w.size = (w.readyPart.length : Int) →
      ((w.readyPart.length : Int) + ((ps.map List.length).sum : Nat) < 2 ^ 63) →
      (writeAll w ps).size = ((writeAll w ps).readyPart.length : Int) := by
  induction ps with
  | nil => intro w h _; simpa [writeAll] using h
  | cons p ps ih =>
    intro w h hlen
    have hstep : writeAll w (p :: ps) = writeAll (w.Write p).2 ps := rfl
    rw [hstep]
    simp only [List.map_cons, List.sum_cons, Nat.cast_add] at hlen
    have hnn : (0 : Int) ≤ ((ps.map List.length).sum : Nat) := Int.natCast_nonneg _
    apply ih
    · simp only [writer.Write, List.length_append, Nat.cast_add, h]
      apply wrap64_of_range <;> omega
    · simp only [writer.Write, List.length_append, Nat.cast_add]
      omega

/-- C1, the code as written: `Write` has no guard.  On every writer, also one
whose `closed`, `committed` or `cancelled` flag is set, it returns `len(p)`
with a nil error, appends `p` to the buffer and leaves the three flags as they
were. -/
theorem Write_has_no_guard (w : writer) (p : List Byte) :
    (w.Write p).1 = ((p.length : Int), none) ∧
    (w.Write p).2.readyPart = w.readyPart ++ p ∧
    (w.Write p).2.closed = w.closed ∧
    (w.Write p).2.committed = w.committed ∧
    (w.Write p).2.cancelled = w.cancelled :=
  ⟨rfl, rfl, rfl, rfl, rfl⟩

/-- C2 as stated fails: on a fresh writer over the store backend, which accepts
every upload, `Cancel` followed by `Close` returns with both `closed` and
`cancelled` set. -/
theorem cancel_then_close_sets_two_flags :
    (storeDriver "/reg").Writer "/k" false [] =
      .ret (.ok ⟨"/k", 0, [], false, false, false⟩, []) ∧
    runOps (storeDriver "/reg") 1 [.Cancel, .Close] ⟨"/k", 0, [], false, false, false⟩ [] =
      .ret (⟨"/k", 0, [], true, false, true⟩, [("/reg/k", [])]) := by
  decide

/-- C2 amended: in every writer state reached from a writer returned by
`Writer` through any sequence of `Write`, `Close`, `Commit` and `Cancel` calls
that all return, over any backend, `committed` and `cancelled` are never both
set. -/
theorem committed_cancelled_exclusive (d : driver σ) (path : String) (append : Bool)
    (s0 s1 s : σ) (w0 w : writer) (fuel : Nat) (ops : List WriterOp)
    (hW : d.Writer path append s0 = .ret (.ok w0, s1))
    (hrun : runOps d fuel ops w0 s1 = .ret (w, s)) :
    ¬ (w.committed = true ∧ w.cancelled = true) := by
  have hf := Writer_flags d path append s0 s1 w0 hW
  refine runOps_not_both d fuel ops w0 w s1 s ?_ hrun
  simp [hf.2.1]

/-- C2 amended, at a concrete run: write, commit, then a refused cancel and a
close on the store backend. -/
theorem committed_cancelled_exclusive_witness :
    ¬ ((⟨"/k", 2, [1, 2], true, true, false⟩ : writer).committed = true ∧
       (⟨"/k", 2, [1, 2], true, true, false⟩ : writer).cancelled = true) :=
  committed_cancelled_exclusive (storeDriver "/reg") "/k" false [] [] [("/reg/k", [1, 2])]
    ⟨"/k", 0, [], false, false, false⟩ ⟨"/k", 2, [1, 2], true, true, false⟩ 1
    [.Write [1, 2], .Commit, .Cancel, .Close] (by decide) (by decide)

/-- C3 as stated fails: on a fresh writer the first `Cancel` sets `cancelled`,
and a second `Cancel` on that writer returns nil instead of an error. -/
theorem second_Cancel_succeeds :
    writer.Cancel ⟨"/k", 0, [], false, false, false⟩ =
      (none, ⟨"/k", 0, [], false, false, true⟩) ∧
    writer.Cancel ⟨"/k", 0, [], false, false, true⟩ =
      (none, ⟨"/k", 0, [], false, false, true⟩) := by
  decide

/-- C3 amended: `Commit` on a writer with any of `closed`, `committed`,
`cancelled` set, and `Cancel` on a writer with `closed` or `committed` set,
return an error and leave the writer (flags, size, buffer) and the backend
unchanged. -/
theorem Commit_Cancel_refuse_finalized (d : driver σ) (w : writer) (fuel : Nat) (s : σ) :
    ((w.closed = true ∨ w.committed = true ∨ w.cancelled = true) →
      ∃ e, w.Commit d fuel s = .ret (some e, w, s)) ∧
    ((w.closed = true ∨ w.committed = true) → ∃ e, w.Cancel = (some e, w)) := by
  constructor
  · intro h
    unfold writer.Commit
    cases hc : w.closed
    · cases hm : w.committed
      · cases hx : w.cancelled
        · simp [hc, hm, hx] at h
        · exact ⟨.Errorf "already cancelled", by simp⟩
      · exact ⟨.Errorf "already committed", by simp⟩
    · exact ⟨.Errorf "already closed", by simp⟩
  · intro h
    unfold writer.Cancel
    cases hc : w.closed
    · cases hm : w.committed
      · simp [hc, hm] at h
      · exact ⟨.Errorf "already committed", by simp⟩
    · exact ⟨.Errorf "already closed", by simp⟩

/-- C3 amended, at concrete writers: `Commit` after `Close` and `Cancel` after
`Commit` are refused. -/
theorem Commit_Cancel_refuse_finalized_witness :
    (∃ e, writer.Commit (storeDriver "/reg") ⟨"/k", 1, [1], true, false, false⟩ 0 [] =
      .ret (some e, ⟨"/k", 1, [1], true, false, false⟩, [])) ∧
    (∃ e, writer.Cancel ⟨"/k", 1, [1], false, true, false⟩ =
      (some e, ⟨"/k", 1, [1], false, true, false⟩)) :=
  ⟨(Commit_Cancel_refuse_finalized (storeDriver "/reg")
      ⟨"/k", 1, [1], true, false, false⟩ 0 []).1 (Or.inl rfl),
   (Commit_Cancel_refuse_finalized (storeDriver "/reg")
      ⟨"/k", 1, [1], false, true, false⟩ 0 []).2 (Or.inr rfl)⟩

/-- C4 as stated fails: when the metadata reports five bytes and `Get` fails,
`Writer(path, true)` returns a writer of size 5 with an empty buffer. -/
theorem append_writer_size_without_bytes :
    staleDriver.Writer "/k" true () = .ret (.ok ⟨"/k", 5, [], false, false, false⟩, ()) ∧
    (⟨"/k", 5, [], false, false, false⟩ : writer).Size ≠
      (((⟨"/k", 5, [], false, false, false⟩ : writer).readyPart.length : Nat) : Int) := by
  decide

/-- C4 amended: for a writer returned by `Writer(path, false)`, and for one
returned by `Writer(path, true)` when `Get` delivered exactly as many bytes as
`GetInfo` reported, after any sequence of `Write` calls whose total stays within
the `int64` range, `Size()` equals the length of the buffer. -/
theorem Writer_size_tracks_buffer (d : driver σ) (path : String) (append : Bool)
    (s0 s1 : σ) (w0 : writer) (ps : List (List Byte))
    (hW : d.Writer path append s0 = .ret (.ok w0, s1))
    (hGet : append = true → ∀ fi, (d.Client.GetInfo (d.fullPath path) s0).1.info = some fi →
      0 ≤ fi.Size ∧ (0 < fi.Size →
        (((d.Client.Get (d.fullPath path)
          (d.Client.GetInfo (d.fullPath path) s0).2).1.written.length : Nat) : Int) = fi.Size))
    (hlen : (w0.readyPart.length : Int) + ((ps.map List.length).sum : Nat) < 2 ^ 63) :
    (writeAll w0 ps).Size = ((writeAll w0 ps).readyPart.length : Int) := by
  unfold writer.Size
  refine writeAll_size ps w0 ?_ hlen
  unfold driver.Writer at hW
  cases append
  · simp only [Bool.false_eq_true, if_false, Res.ret.injEq, Prod.mk.injEq, Except.ok.injEq] at hW
    rw [← hW.1]
    have hf := newWriter_fields d path 0 s0
    rw [hf.1, hf.2.1]
    simp
  · simp only [if_true] at hW
    cases herr : (d.Client.GetInfo (d.fullPath path) s0).1.err with
    | some e => simp [herr] at hW
    | none =>
      cases hinfo : (d.Client.GetInfo (d.fullPath path) s0).1.info with
      | none => simp [herr, hinfo] at hW
      | some fi =>
        simp only [herr, hinfo, Res.ret.injEq, Prod.mk.injEq, Except.ok.injEq] at hW
        rw [← hW.1]
        have hf := newWriter_fields d path fi.Size (d.Client.GetInfo (d.fullPath path) s0).2
        have hg := hGet rfl fi hinfo
        rw [hf.1, hf.2.1]
        by_cases hpos : 0 < fi.Size
        · simp only [hpos, if_true]
          exact (hg.2 hpos).symm
        · simp only [hpos, if_false, List.length_nil, Nat.cast_zero]
          omega

/-- C4 amended, at a concrete run: appending one byte to the two-byte object
`/reg/k` of the store backend. -/
theorem Writer_size_tracks_buffer_witness :
    (writeAll ⟨"/k", 2, [1, 2], false, false, false⟩ [[3]]).Size =
      (((writeAll ⟨"/k", 2, [1, 2], false, false, false⟩ [[3]]).readyPart.length : Nat) : Int) :=
  Writer_size_tracks_buffer (storeDriver "/reg") "/k" true [("/reg/k", [1, 2])]
    [("/reg/k", [1, 2])] ⟨"/k", 2, [1, 2], false, false, false⟩ [[3]] (by decide)
    (by
      intro _ fi hfi
      have hinfo : ((storeDriver "/reg").Client.GetInfo ((storeDriver "/reg").fullPath "/k")
          [("/reg/k", [1, 2])]).1.info = some ⟨2, "/reg/k", "file"⟩ := by decide
      rw [hinfo] at hfi
      cases hfi
      decide)
    (by decide)

end WriterFacts

/-! ## The driver facade -/

section FacadeFacts

variable {σ : Type}

/-- C5: when the object under `path` exists with content `B` (the client's
`Get` writes `B` and reports `len(B)`), `Reader(path, offset)` fails with
`InvalidOffsetError` for `offset > len(B)`, yields the empty sequence for
`offset = len(B)`, and yields the tail `B[offset:]` for `0 ≤ offset < len(B)`. -/
theorem Reader_offset_cases (d : driver σ) (path : String) (offset : Int) (s : σ)
    (B : List Byte)
    (hGet : (d.Client.Get (d.fullPath path) s).1 = ⟨B, (B.length : Int), none⟩) :
    ((B.length : Int) < offset →
      d.Reader path offset s =
        .ret (.error (.InvalidOffsetError path offset), (d.Client.Get (d.fullPath path) s).2)) ∧
    (offset = (B.length : Int) →
      d.Reader path offset s = .ret (.ok [], (d.Client.Get (d.fullPath path) s).2)) ∧
    (0 ≤ offset → offset < (B.length : Int) →
      d.Reader path offset s =
        .ret (.ok (B.drop offset.toNat), (d.Client.Get (d.fullPath path) s).2)) := by
  refine ⟨?_, ?_, ?_⟩
  · intro h
    unfold driver.Reader
    simp only [hGet]
    simp [h]
  · intro h
    unfold driver.Reader
    simp only [hGet]
    subst h
    simp
  · intro h0 h1
    unfold driver.Reader
    simp only [hGet]
    have h2 : ¬ (offset > (B.length : Int)) := by omega
    have h3 : 0 ≤ offset ∧ offset ≤ (B.length : Int) := ⟨h0, by omega⟩
    simp [h2, h3]

/-- C5 at a concrete object: the three-byte object `/reg/k` of the store
backend read at the offsets 4, 3 and 1. -/
theorem Reader_offset_cases_witness :
    (storeDriver "/reg").Reader "/k" 4 [("/reg/k", [1, 2, 3])] =
      .ret (.error (.InvalidOffsetError "/k" 4), [("/reg/k", [1, 2, 3])]) ∧
    (storeDriver "/reg").Reader "/k" 3 [("/reg/k", [1, 2, 3])] =
      .ret (.ok [], [("/reg/k", [1, 2, 3])]) ∧
    (storeDriver "/reg").Reader "/k" 1 [("/reg/k", [1, 2, 3])] =
      .ret (.ok [2, 3], [("/reg/k", [1, 2, 3])]) :=
  ⟨(Reader_offset_cases (storeDriver "/reg") "/k" 4 [("/reg/k", [1, 2, 3])] [1, 2, 3]
      (by decide)).1 (by decide),
   (Reader_offset_cases (storeDriver "/reg") "/k" 3 [("/reg/k", [1, 2, 3])] [1, 2, 3]
      (by decide)).2.1 (by decide),
   (Reader_offset_cases (storeDriver "/reg") "/k" 1 [("/reg/k", [1, 2, 3])] [1, 2, 3]
      (by decide)).2.2 (by decide) (by decide)⟩

/-- C7, the code as written: when the source is a file whose content is read
and `PutContent` to the destination returns an error, `Move` returns nil (the
loop leaves the function with `return nil`). -/
theorem Move_returns_nil_on_PutContent_error (d : driver σ) (fuel : Nat)
    (sourcePath destPath : String) (s s1 s2 s3 : σ) (fi : FileInfoFields) (b : List Byte)
    (e : StorageError)
    (hStat : d.Stat sourcePath s = .ret (.ok fi, s1)) (hfile : fi.IsDir = false)
    (hGet : d.GetContent sourcePath s1 = (.ok b, s2))
    (hPut : d.PutContent (fuel + 1) destPath b s2 = .ret (some e, s3)) :
    d.Move (fuel + 1) sourcePath destPath s = .ret (none, s3) := by
  unfold driver.Move
  simp only [hStat, hfile, Bool.false_eq_true, if_false, hGet]
  unfold moveLoop
  simp only [hPut]

/-- C7 at the failing input: the file `/a/x` exists, the backend refuses
`Mkdir`, so `PutContent` reports `InvalidPathError`, and `Move` returns nil. -/
theorem Move_returns_nil_on_PutContent_error_witness :
    (noMkdirDriver "").PutContent 3 "/b/x" [1] [("/a/x", [1])] =
      .ret (some (.InvalidPathError "/b/x"), [("/a/x", [1])]) ∧
    (noMkdirDriver "").Move 3 "/a/x" "/b/x" [("/a/x", [1])] = .ret (none, [("/a/x", [1])]) :=
  ⟨by decide,
   Move_returns_nil_on_PutContent_error (noMkdirDriver "") 2 "/a/x" "/b/x" [("/a/x", [1])]
     [("/a/x", [1])] [("/a/x", [1])] [("/a/x", [1])] ⟨1, "/a/x", false⟩ [1]
     (.InvalidPathError "/b/x") (by decide) rfl (by decide) (by decide)⟩

/-- C8 as stated fails: on the empty configuration map, which has no `bucket`
entry, the error is the one about the user name. -/
theorem FromParameters_empty_map :
    FromParameters (fun v : String => v)
        (fun _ _ _ => (none : Option (Client Unit))) (fun _ => none) =
      .error (.Errorf "No username parameter provided") ∧
    StorageError.Errorf "No username parameter provided" ≠
      StorageError.Errorf "No bucket parameter provided" :=
  ⟨rfl, by decide⟩

/-- C8 amended: for every configuration map without a `bucket` entry, or whose
bucket renders as the empty string, `FromParameters` fails whatever the client
constructor is, so `New` is not reached.  The error is "No username parameter
provided" when the map has no `username` entry, "No password parameter
provided" when it has a `username` but no `password` entry, and "No bucket
parameter provided" when it has both. -/
theorem FromParameters_no_bucket {V : Type} (Sprint : V → String)
    (NewUpYun : String → String → String → Option (Client σ))
    (parameters : String → Option V)
    (hb : parameters "bucket" = none ∨ ∃ v, parameters "bucket" = some v ∧ Sprint v = "") :
    (parameters "username" = none →
      FromParameters Sprint NewUpYun parameters =
        .error (.Errorf "No username parameter provided")) ∧
    (parameters "username" ≠ none → parameters "password" = none →
      FromParameters Sprint NewUpYun parameters =
        .error (.Errorf "No password parameter provided")) ∧
    (parameters "username" ≠ none → parameters "password" ≠ none →
      FromParameters Sprint NewUpYun parameters =
        .error (.Errorf "No bucket parameter provided")) := by
  unfold FromParameters
  cases hu : parameters "username" with
  | none => exact ⟨fun _ => rfl, fun h => absurd rfl h, fun h => absurd rfl h⟩
  | some u =>
    cases hp : parameters "password" with
    | none => exact ⟨fun h => (by cases h), fun _ _ => rfl, fun _ h => absurd rfl h⟩
    | some pw =>
      refine ⟨fun h => (by cases h), fun _ h => (by cases h), fun _ _ => ?_⟩
      rcases hb with hb | ⟨v, hv, hs⟩
      · rw [hb]
      · rw [hv]
        simp only [hs, if_true]

/-- C8 amended, at three concrete maps without a usable bucket: the empty map,
a map with only a user name, and a map with user name, password and an empty
bucket. -/
theorem FromParameters_no_bucket_witness :
    FromParameters (fun v : String => v) (fun _ _ _ => some storeClient) (fun _ => none) =
      .error (.Errorf "No username parameter provided") ∧
    FromParameters (fun v : String => v) (fun _ _ _ => some storeClient)
        (fun k => if k = "username" then some "u" else none) =
      .error (.Errorf "No password parameter provided") ∧
    FromParameters (fun v : String => v) (fun _ _ _ => some storeClient)
        (fun k => if k = "username" then some "u" else if k = "password" then some "p"
          else if k = "bucket" then some "" else none) =
      .error (.Errorf "No bucket parameter provided") :=
  ⟨(FromParameters_no_bucket (fun v : String => v) (fun _ _ _ => some storeClient)
      (fun _ => none) (Or.inl rfl)).1 rfl,
   (FromParameters_no_bucket (fun v : String => v) (fun _ _ _ => some storeClient)
      (fun k => if k = "username" then some "u" else none)
      (Or.inl (by decide))).2.1 (by decide) (by decide),
   (FromParameters_no_bucket (fun v : String => v) (fun _ _ _ => some storeClient)
      (fun k => if k = "username" then some "u" else if k = "password" then some "p"
        else if k = "bucket" then some "" else none)
      (Or.inr ⟨"", by decide, rfl⟩)).2.2 (by decide) (by decide)⟩

theorem moveEach_recordMove (sourcePath destPath : String) (files : List String) :
    ∀ log : List (String × String),
      moveEach recordMove sourcePath destPath files log =
        .ret (log ++ files.map fun file =>
          (sourcePath ++ "/" ++ file, destPath ++ "/" ++ file)) := by
  induction files with
  | nil => intro log; simp [moveEach]
  | cons file rest ih =>
    intro log
    simp only [moveEach, recordMove, ih, List.map_cons, List.append_assoc, List.singleton_append]

/-- C10, the code as written: `List("/a")` already yields the child path
`/a/x`, and the loop of `Move("/a", "/b")` prepends the source and destination
once more, so the recursive call goes from `/a//a/x` to `/b//a/x`; on the
backend holding the file `/a/x` the move returns nil after looking up the
missing key `/a/a/x`, without reading `/a/x` or writing `/b/x`. -/
theorem Move_directory_repeats_source_path :
    (dirDriver.List "/a" []).1 = .ok ["/a/x"] ∧
    moveEach recordMove "/a" "/b" ["/a/x"] [] = .ret [("/a//a/x", "/b//a/x")] ∧
    dirDriver.Move 3 "/a" "/b" [] =
      .ret (none, [.GetInfo "/a", .GetLargeList "/a", .GetInfo "/a/a/x"]) := by
  decide

theorem lastSlash_of_mem (l : List Char) (h : '/' ∈ l) :
    ∃ i, lastSlash l = some i ∧ i < l.length := by
  induction l with
  | nil => simp at h
  | cons c cs ih =>
    cases hcs : lastSlash cs with
    | some i =>
      refine ⟨i + 1, by simp [lastSlash, hcs], ?_⟩
      by_cases hm : '/' ∈ cs
      · obtain ⟨j, hj, hlt⟩ := ih hm
        rw [hcs] at hj
        cases hj
        simp only [List.length_cons]
        omega
      · have hc : c = '/' := by
          rcases List.mem_cons.mp h with h1 | h1
          · exact h1.symm
          · exact absurd h1 hm
        subst hc
        have : ∀ (m : List Char) (k : Nat), lastSlash m = some k → '/' ∈ m := by
          intro m
          induction m with
          | nil => intro k hk; simp [lastSlash] at hk
          | cons x xs ihx =>
            intro k hk
            cases hxs : lastSlash xs with
            | some j => exact List.mem_cons_of_mem _ (ihx j hxs)
            | none =>
              simp only [lastSlash, hxs] at hk
              by_cases hx : x = '/'
              · rw [hx]; exact List.mem_cons_self _ _
              · simp [hx] at hk
        exact absurd (this cs i hcs) hm
    | none =>
      have hc : c = '/' := by
        rcases List.mem_cons.mp h with h1 | h1
        · exact h1.symm
        · obtain ⟨j, hj, _⟩ := ih h1
          rw [hcs] at hj
          cases hj
      refine ⟨0, by simp [lastSlash, hcs, hc], by simp⟩

theorem parentDir_of_mem (fullPath : String) (h : '/' ∈ fullPath.data) :
    ∃ dir, parentDir fullPath = some dir := by
  obtain ⟨i, hi, hlt⟩ := lastSlash_of_mem fullPath.data h
  refine ⟨String.mk (fullPath.data.take i), ?_⟩
  unfold parentDir LastIndex sliceTo
  rw [hi]
  have h1 : (0 : Int) ≤ (i : Int) ∧ (i : Int) ≤ (fullPath.data.length : Int) := by
    constructor <;> omega
  simp only [h1, and_self, if_true, Int.toNat_ofNat]

theorem Clean_rooted_has_slash (p : String) (h : p.data.head? = some '/') :
    '/' ∈ (Clean p).data := by
  have hne : p.data ≠ [] := by
    intro h0
    rw [h0] at h
    simp at h
  have hb : (p.data.head? == some '/') = true := by simp [h]
  have hbuf : cleanBuf p.data = ((splitSlash p.data).foldl (cleanElem true) (['/'], 1)).1 := by
    unfold cleanBuf
    simp only [hb, if_true]
  have hh := foldl_cleanElem_rooted_head (splitSlash p.data) (['/'], 1) ⟨rfl, le_refl 1⟩
  rw [← hbuf] at hh
  cases hcb : cleanBuf p.data with
  | nil => rw [hcb] at hh; simp at hh
  | cons c rest =>
    rw [hcb] at hh
    simp only [List.head?_cons, Option.some.injEq] at hh
    subst hh
    unfold Clean
    simp [hne, hcb]

/-- The key of a path contains a `/` whenever the root directory starts with
`/`, or the root directory is empty and the path starts with `/`. -/
theorem fullPath_has_slash (d : driver σ) (P : String)
    (h : d.rootDirectory.data.head? = some '/' ∨
      (d.rootDirectory = "" ∧ P.data.head? = some '/')) :
    '/' ∈ (d.fullPath P).data := by
  unfold driver.fullPath Join
  rcases h with h | ⟨h0, h⟩
  · have hne : (d.rootDirectory == "") = false := by
      rw [beq_eq_false_iff_ne]
      intro h1
      rw [h1] at h
      simp at h
    simp only [List.dropWhile, hne, stringsJoin]
    apply Clean_rooted_has_slash
    simp only [String.data_append, List.append_assoc]
    cases hrd : d.rootDirectory.data with
    | nil => rw [hrd] at h; simp at h
    | cons c cs => rw [hrd] at h; simpa using h
  · have hne : (P == "") = false := by
      rw [beq_eq_false_iff_ne]
      intro h1
      rw [h1] at h
      simp at h
    rw [h0]
    simp only [List.dropWhile, beq_self_eq_true, hne, stringsJoin]
    exact Clean_rooted_has_slash P h

theorem store_lookup_after_Put (key : String) (body : List Byte) (s : Store) :
    ((storeClient.Put key body s).2).lookup key = some body := by
  simp [storeClient, List.lookup]

/-- C6 as stated fails: with an empty root directory the path `a` gives the key
`a`, which has no `/`, and `PutContent` panics on the parent-directory slice
instead of succeeding. -/
theorem PutContent_panics_without_slash :
    (storeDriver "").fullPath "a" = "a" ∧
    (storeDriver "").PutContent 1 "a" [1, 2, 3] [] = .panicked ∧
    ¬ ∃ fuel s1, (storeDriver "").PutContent fuel "a" [1, 2, 3] [] = .ret (none, s1) := by
  refine ⟨by decide, by decide, ?_⟩
  rintro ⟨fuel, s1, h⟩
  have hp : parentDir ((storeDriver "").fullPath "a") = none := by decide
  unfold driver.PutContent at h
  rw [hp] at h
  cases h

/-- C6 amended: over the immediately consistent store, for every root
directory, every path `P` whose key `fullPath(P)` contains a `/`, and every
byte sequence `B`, `PutContent(P, B)` returns nil (one polling round suffices)
and a following `GetContent(P)` returns exactly `B`. -/
theorem PutContent_GetContent_roundtrip (root P : String) (B : List Byte) (s : Store)
    (fuel : Nat) (hkey : '/' ∈ ((storeDriver root).fullPath P).data) (hfuel : 0 < fuel) :
    ∃ s1, (storeDriver root).PutContent fuel P B s = .ret (none, s1) ∧
      (storeDriver root).GetContent P s1 = (.ok B, s1) := by
  obtain ⟨dir, hdir⟩ := parentDir_of_mem _ hkey
  obtain ⟨n, rfl⟩ : ∃ n, fuel = n + 1 := ⟨fuel - 1, by omega⟩
  have hl := store_lookup_after_Put ((storeDriver root).fullPath P) B s
  refine ⟨(storeClient.Put ((storeDriver root).fullPath P) B s).2, ?_, ?_⟩
  · unfold driver.PutContent
    rw [hdir]
    simp only [storeDriver, putLoop, storeClient] at hl ⊢
    simp only [hl]
    simp
  · unfold driver.GetContent
    simp only [storeDriver, storeClient] at hl ⊢
    simp only [hl]

/-- C6 amended, at the concrete key `/reg/a/b.txt`. -/
theorem PutContent_GetContent_roundtrip_witness :
    ∃ s1, (storeDriver "/reg").PutContent 1 "/a/b.txt" [104, 105] [] = .ret (none, s1) ∧
      (storeDriver "/reg").GetContent "/a/b.txt" s1 = (.ok [104, 105], s1) :=
  PutContent_GetContent_roundtrip "/reg" "/a/b.txt" [104, 105] [] 1 (by decide) (by decide)

end FacadeFacts

end Upyun
